import Mathlib

/-!
Verification development for the duplicate-file search engine
(`src/search_engine.h`, `src/search_engine.cpp`, namespace `griha`).

The engine's core is `SearchEngine::Impl`: a trie of `Node`s where
each `Node` holds
  * `duplicates` — paths confirmed identical through the block digests
    leading to the node,
  * `childs`     — an ordered map from block-digest keys to child nodes,
  * `file_to_compare` — at most one path stored lazily, not yet hashed
    at this node's level.

This file gives a shallow embedding of that code.  Machine-level pieces
are modelled as follows:

  * a filesystem path is a list of components (`Path`);
  * file contents are byte lists (`Bytes`); the filesystem is a total
    function `fsys : Path → Bytes` (the happy, error-free model; a
    fallible variant for I/O-error behaviour appears further below);
  * the digest (MD5/SHA-256 + Base64 in the source, `std::string` keys)
    is an abstract function `hashFn : Bytes → κ` into a linearly
    ordered key type, matching the spec's "abstract digest producer";
    `boost::container::map` becomes a key-sorted association list;
  * regex patterns are abstract predicates on the filename component;
  * directory enumeration is external to the engine, so a scan root is
    given together with the paths it yields (`ScanEntry`).
-/

set_option linter.unusedSectionVars false

namespace Bayan

abbrev Path : Type := List String
abbrev Bytes : Type := List Nat

/-- `SearchEngine::Impl::Node`: `duplicates`, the ordered child map
`childs`, and the lazily held `file_to_compare` (empty `fs::path`
modelled as `none`). -/
inductive Node (κ : Type) where
  | mk (duplicates : List Path) (childs : List (κ × Node κ)) (file_to_compare : Option Path)

variable {κ : Type} [LinearOrder κ]

def Node.duplicates : Node κ → List Path
  | .mk d _ _ => d

def Node.childs : Node κ → List (κ × Node κ)
  | .mk _ cs _ => cs

def Node.ftc : Node κ → Option Path
  | .mk _ _ f => f

/-- A default-constructed `Node`, as created by `childs[key]` on a
missing key and by `Impl::clear()` for the root. -/
def emptyNode : Node κ := .mk [] [] none

/-- Lookup in the ordered child map (`childs.find`-like access). -/
def lookupChild : List (κ × Node κ) → κ → Option (Node κ)
  | [], _ => none
  | (k1, c) :: rest, k => if k = k1 then some c else lookupChild rest k

/-- `childs[k]`: the mapped node, or a default-constructed node when the
key is absent (`operator[]` inserts a default node; the insertion itself
is performed by `setChild` below once the node has been updated). -/
def getChild (cs : List (κ × Node κ)) (k : κ) : Node κ :=
  (lookupChild cs k).getD emptyNode

/-- Store a node under a key, keeping the association list sorted by key
(the ordered-map layout of `boost::container::map`). -/
def setChild : List (κ × Node κ) → κ → Node κ → List (κ × Node κ)
  | [], k, c => [(k, c)]
  | (k1, c1) :: rest, k, c =>
    if k = k1 then (k, c) :: rest
    else if k < k1 then (k, c) :: (k1, c1) :: rest
    else (k1, c1) :: setChild rest k c

/-- Node reached from `n` by following a list of child keys. -/
def nodeAt : Node κ → List κ → Option (Node κ)
  | n, [] => some n
  | n, k :: ks =>
    match lookupChild n.childs k with
    | none => none
    | some c => nodeAt c ks

mutual

/-- All paths stored in a node's subtree: the `duplicates` lists plus
the `file_to_compare` slots — exactly the paths the iterator's
`Accessor`s enumerate below this node. -/
def pathsOf : Node κ → List Path
  | .mk d cs f => d ++ f.toList ++ pathsList cs

def pathsList : List (κ × Node κ) → List Path
  | [] => []
  | (_, c) :: rest => pathsOf c ++ pathsList rest

end

/-! ## Block reading and hashing (`SearchEngine::Impl::hash_block`)

`hash_block(is, level)` seeks to `level * block_size`, reads up to
`block_size` bytes, zero-fills the remainder of the buffer on a short
read (which also sets the stream's eof bit), and digests exactly
`block_size` bytes. -/

/-- The `level`-th block of a file: `block_size` bytes starting at
offset `level * bsz`, zero-padded on the right at end of file. -/
def blockOf (bsz : Nat) (c : Bytes) (level : Nat) : Bytes :=
  let raw := (c.drop (level * bsz)).take bsz
  raw ++ List.replicate (bsz - raw.length) 0

/-- Whether reading block `level` sets the stream's eof bit: fewer than
`bsz` bytes remain at offset `level * bsz`. -/
def atEof (bsz : Nat) (c : Bytes) (level : Nat) : Bool :=
  c.length < (level + 1) * bsz

/-- `hash_block`: the digest of the (zero-padded) `level`-th block,
paired with the eof status the caller observes on the stream. -/
def hash_block (bsz : Nat) (hashFn : Bytes → κ) (c : Bytes) (level : Nat) : κ × Bool :=
  (hashFn (blockOf bsz c level), atEof bsz c level)

/-- Digests of blocks `0 .. m-1` of a file. -/
def digestsUpTo (bsz : Nat) (hashFn : Bytes → κ) (c : Bytes) (m : Nat) : List κ :=
  (List.range m).map (fun l => hashFn (blockOf bsz c l))

/-- The digests of all blocks the engine ever reads of a file: levels
`0 .. c.length / bsz`, the last being the block whose read reports eof. -/
def fullDigests (bsz : Nat) (hashFn : Bytes → κ) (c : Bytes) : List κ :=
  digestsUpTo bsz hashFn c (c.length / bsz + 1)

/-! ## Insertion (`SearchEngine::Impl::process`, lines 188-218)

The loop is translated with the stream state made explicit.  The second
component of each result counts the digest computations (calls to
`hash_block`) performed.  `fuel` bounds the loop; every theorem below
supplies fuel `> c.length / bsz - level`, which renders the fuel-0
branch unreachable (the candidate reports eof at level
`c.length / bsz` at the latest, ending the loop). -/

/-- The body of the `if (!n->file_to_compare.empty())` branch: hash the
incumbent's block at `level`; on eof move it into
`childs[digest].duplicates` and clear `file_to_compare`, otherwise swap
it into `childs[digest].file_to_compare`. -/
def promote (bsz : Nat) (hashFn : Bytes → κ) (fsys : Path → Bytes) (level : Nat)
    (n : Node κ) : Node κ × Nat :=
  match n.ftc with
  | none => (n, 0)
  | some g =>
    let dg := hashFn (blockOf bsz (fsys g) level)
    let cg := getChild n.childs dg
    if atEof bsz (fsys g) level then
      (Node.mk n.duplicates
        (setChild n.childs dg (Node.mk (cg.duplicates ++ [g]) cg.childs cg.ftc)) none, 1)
    else
      (Node.mk n.duplicates
        (setChild n.childs dg (Node.mk cg.duplicates cg.childs (some g))) cg.ftc, 1)

/-- The trie-descent loop of `process`.  At each node: promote the
incumbent if present; otherwise, if the node has no children, store the
candidate in `file_to_compare` and stop; then hash the candidate's
block, descend into `childs[digest]`, appending the candidate to
`duplicates` there when its stream reported eof. -/
def insertLoop (bsz : Nat) (hashFn : Bytes → κ) (fsys : Path → Bytes) (fp : Path) :
    Nat → Nat → Node κ → Node κ × Nat
  | 0, _, n => (n, 0)
  | fuel + 1, level, n =>
    if n.ftc.isNone && n.childs.isEmpty then
      (Node.mk n.duplicates n.childs (some fp), 0)
    else
      let pr := promote bsz hashFn fsys level n
      let m := pr.1
      let df := hashFn (blockOf bsz (fsys fp) level)
      let c := getChild m.childs df
      if atEof bsz (fsys fp) level then
        (Node.mk m.duplicates
          (setChild m.childs df (Node.mk (c.duplicates ++ [fp]) c.childs c.ftc)) m.ftc,
         pr.2 + 1)
      else
        let r := insertLoop bsz hashFn fsys fp fuel (level + 1) c
        (Node.mk m.duplicates (setChild m.childs df r.1) m.ftc, pr.2 + 1 + r.2)

/-! ## Candidate filter and driver -/

/-- Filename component of a path (`p.filename()`). -/
def filenameOf (p : Path) : String := p.getLastD ""

/-- `match_any`: an empty pattern list accepts everything; otherwise the
filename component must match some pattern.  Patterns (compiled regexes
in the source) are abstract predicates. -/
def matchAny (patterns : List (String → Bool)) (p : Path) : Bool :=
  patterns.isEmpty || patterns.any (fun pat => pat (filenameOf p))

/-- Whether `needle` is a contiguous leading run of `hay`. -/
def leadingRun : Path → Path → Bool
  | [], _ => true
  | _ :: _, [] => false
  | a :: as, b :: bs => a == b && leadingRun as bs

/-- Whether `needle` occurs contiguously inside `hay`. -/
def containsRun : Path → Path → Bool
  | needle, [] => leadingRun needle []
  | needle, h :: t => leadingRun needle (h :: t) || containsRun needle t

/-- `rng::search(lhs, rhs) != lhs.end()`: the needle occurs in `lhs` at
a position other than the end iterator.  An empty needle is found at
`lhs.begin()`, which differs from the end iterator iff `lhs` is
non-empty. -/
def searchFound (lhs rhs : Path) : Bool :=
  if rhs.isEmpty then !lhs.isEmpty else containsRun rhs lhs

/-- `fs::relative(p, base)` for the one situation the driver uses it in:
`p` was yielded by enumerating the directory `base`, so `base` is a
prefix of `p` and the relative form drops it.  (Other inputs keep `p`
unchanged; the driver never produces them.) -/
def relativeTo (p base : Path) : Path :=
  if leadingRun base p then p.drop base.length else p

/-- `is_excluded` (lines 32-44): false on an empty exclude list;
otherwise true iff some exclude entry is found (via `rng::search`)
inside the candidate's path relative to the current scan root.  The
source's version takes `paths_exclude` by const reference and does not
mutate it. -/
def is_excluded (p path_exclude_from : Path) (paths_exclude : List Path) : Bool :=
  if paths_exclude.isEmpty then false
  else paths_exclude.any (fun r => searchFound (relativeTo p path_exclude_from) r)

/-- The engine's configuration (`SearchEngine::InitParams`, minus the
scan roots, which are passed to `runEngine` together with what
enumerating them yields).  The digest algorithm choice is folded into
the abstract `hashFn`. -/
structure Params (κ : Type) where
  block_size : Nat
  file_min_size : Nat
  paths_exclude : List Path
  rxpatterns : List (String → Bool)
  hashFn : Bytes → κ

/-- The filters applied inside `process` itself (filename patterns and
the size floor). -/
def accepts (P : Params κ) (fsys : Path → Bytes) (p : Path) : Bool :=
  matchAny P.rxpatterns p && decide (P.file_min_size ≤ (fsys p).length)

/-- `SearchEngine::Impl::process`: reject on pattern mismatch or a size
below `file_min_size`, otherwise run the insertion loop from the root
at level 0.  Fuel `length / block_size + 1` covers every level the loop
can reach. -/
def process (P : Params κ) (fsys : Path → Bytes) (fp : Path) (n : Node κ) : Node κ × Nat :=
  if accepts P fsys fp then
    insertLoop P.block_size P.hashFn fsys fp ((fsys fp).length / P.block_size + 1) 0 n
  else (n, 0)

/-- One entry of `paths_scan` together with the result of the
existence / regular-file / directory checks `run` performs on it and,
for a directory, the paths the (flat or recursive) enumeration yields. -/
inductive ScanEntry where
  | file (p : Path)
  | dir (root : Path) (entries : List Path)
  | missing (p : Path)
deriving DecidableEq

/-- One iteration of the loop in `SearchEngine::Impl::run`: a regular
file named as a scan root goes straight to `process` (no exclude
check); a directory sets `path_exclude_from` and feeds every enumerated
path through `pre_process` (exclude and regular-file checks, then
`process`); anything else is skipped with a warning. -/
def runOne (P : Params κ) (fsys : Path → Bytes) (isReg : Path → Bool)
    (st : Node κ × Nat) (e : ScanEntry) : Node κ × Nat :=
  match e with
  | .file p =>
    let r := process P fsys p st.1
    (r.1, st.2 + r.2)
  | .dir root entries =>
    entries.foldl (fun st2 q =>
      if is_excluded q root P.paths_exclude || !isReg q then st2
      else
        let r := process P fsys q st2.1
        (r.1, st2.2 + r.2)) st
  | .missing _ => st

/-- `SearchEngine::Impl::run`: clear the trie, then scan every root.
Returns the final root node and the total number of digest
computations. -/
def runEngine (P : Params κ) (fsys : Path → Bytes) (isReg : Path → Bool)
    (roots : List ScanEntry) : Node κ × Nat :=
  roots.foldl (runOne P fsys isReg) (emptyNode, 0)

/-- The paths that pass the candidate filter in one scan entry: for a
file root, the `process`-internal filters only; for a directory entry,
additionally the exclude and regular-file checks of `pre_process`. -/
def acceptedOne (P : Params κ) (fsys : Path → Bytes) (isReg : Path → Bool) :
    ScanEntry → List Path
  | .file p => if accepts P fsys p then [p] else []
  | .dir root entries =>
    entries.filter (fun q =>
      !is_excluded q root P.paths_exclude && isReg q && accepts P fsys q)
  | .missing _ => []

/-- All accepted input paths of a run, in discovery order. -/
def acceptedPaths (P : Params κ) (fsys : Path → Bytes) (isReg : Path → Bool)
    (roots : List ScanEntry) : List Path :=
  roots.flatMap (acceptedOne P fsys isReg)

/-! ## Iterator (`SearchEngine::Iterator`, `begin`, `end`, `Accessor`)

A `boost::container::map` iterator is modelled as a cursor: the
designator of the container it points into (the list of child indices
from the root down to the node whose `childs` map it is) paired with a
position; position = container size is the `end()` iterator.  Two C++
map iterators are equal iff they point at the same position of the same
container, which cursor equality captures exactly.  `Iterator::Impl`
holds the descent stack `path` (front = deepest) and the embedded
`Accessor::Impl` (its optional map iterator and the
`on_file_to_compare` flag); the root reference is shared by all
iterators of one engine and is a separate argument here. -/

abbrev Cursor : Type := List Nat × Nat

/-- The node reached from `n` by a list of child indices. -/
def resolveNode : Node κ → List Nat → Node κ
  | n, [] => n
  | n, j :: m => resolveNode ((n.childs[j]?.map (fun kc => kc.2)).getD emptyNode) m

/-- The node a (dereferenceable) cursor points at (`it->second`).  Out
of range positions resolve to a default node; they model C++ undefined
behaviour and are never produced for a dereferenceable iterator. -/
def resolveEntry (root : Node κ) (cur : Cursor) : Node κ :=
  (((resolveNode root cur.1).childs[cur.2]?).map (fun kc => kc.2)).getD emptyNode

/-- `accessor.root.childs.end()`. -/
def rootEnd (root : Node κ) : Cursor := ([], root.childs.length)

/-- `it->second.childs.begin()`. -/
def childBegin (cur : Cursor) : Cursor := (cur.1 ++ [cur.2], 0)

/-- `it->second.childs.end()` for the entry `cur` points at. -/
def childsEnd (root : Node κ) (cur : Cursor) : Cursor :=
  (cur.1 ++ [cur.2], (resolveEntry root cur).childs.length)

/-- `SearchEngine::Iterator::Impl` together with its embedded
`Accessor::Impl` (minus the shared root reference). -/
structure IterState where
  path : List Cursor
  iter : Option Cursor
  onFtc : Bool
deriving DecidableEq

/-- `operator==` on iterators compares `accessor.on_file_to_compare`
and the descent stacks; the accessor's map iterator is not compared. -/
def iterEq (s t : IterState) : Prop := s.onFtc = t.onFtc ∧ s.path = t.path

instance (s t : IterState) : Decidable (iterEq s t) := by
  unfold iterEq; infer_instance

/-- `lookup_end_at_left` (lines 260-280): walk down the leftmost spine
from the node at `front`, stopping at the first node with a non-empty
`duplicates` (position on the duplicates) or, failing that, a non-empty
`file_to_compare` (position on it); record the final front in the
accessor's iterator.  The empty-`childs` fallback mirrors the
`assert(!n.childs.empty())` branch of the source; it is unreachable on
engine-built tries. -/
def lookLeft : Node κ → Cursor → List Cursor → IterState
  | .mk d cs f, front, rest =>
    if d ≠ [] then ⟨front :: rest, some front, false⟩
    else if f ≠ none then ⟨front :: rest, some front, true⟩
    else
      match cs with
      | [] => ⟨front :: rest, some front, false⟩
      | c :: _ => lookLeft c.2 (childBegin front) (front :: rest)

/-- The pop-and-advance loop of `Iterator::Impl::next` (lines 299-310):
`++it`, then while `it` is not the root map's end, the stack is
non-empty, and `it` equals the end of the stack top's child map, pop
the stack into `it` and `++it` again. -/
def upRight (root : Node κ) : Cursor → List Cursor → Cursor × List Cursor
  | it, path =>
    let it1 : Cursor := (it.1, it.2 + 1)
    if it1 = rootEnd root then (it1, path)
    else
      match path with
      | [] => (it1, path)
      | front :: rest =>
        if it1 = childsEnd root front then upRight root front rest
        else (it1, path)

/-- `Iterator::Impl::next` (lines 282-322). -/
def next (root : Node κ) (s : IterState) : IterState :=
  match s.path with
  | [] => ⟨[rootEnd root], s.iter, false⟩
  | it :: rest =>
    if it = rootEnd root then s
    else
      let nd := resolveEntry root it
      if !s.onFtc && nd.ftc ≠ none then ⟨s.path, s.iter, true⟩
      else if nd.childs.isEmpty then
        let pr := upRight root it rest
        if pr.1 = rootEnd root then ⟨pr.1 :: pr.2, none, false⟩
        else lookLeft (resolveEntry root pr.1) pr.1 pr.2
      else lookLeft (resolveEntry root (childBegin it)) (childBegin it) s.path

/-- `SearchEngine::begin` (lines 405-415). -/
def beginIter (root : Node κ) : IterState :=
  match root.childs with
  | [] =>
    if root.ftc ≠ none then ⟨[], none, false⟩
    else ⟨[([], 0)], some ([], 0), false⟩
  | c :: _ => lookLeft c.2 ([], 0) []

/-- `SearchEngine::end` (lines 417-419). -/
def endIter (root : Node κ) : IterState :=
  ⟨[rootEnd root], some (rootEnd root), false⟩

/-- `Iterator::operator*` copies the accessor state out of the
iterator. -/
structure Accessor where
  iter : Option Cursor
  onFtc : Bool
deriving DecidableEq

def deref (s : IterState) : Accessor := ⟨s.iter, s.onFtc⟩

/-- Outcome of `Accessor::visit`: the paths handed to the visitor, the
`std::logic_error("bad access")` throw, or the dereference of a
past-the-end map iterator (undefined behaviour in the source, kept as
its own outcome here). -/
inductive VisitOutcome where
  | visited (ps : List Path)
  | badAccess
  | derefPastEnd
deriving DecidableEq, Repr

/-- `Accessor::visit` (lines 346-362): with no stored map iterator,
throw bad access unless the root's `file_to_compare` is non-empty, in
which case visit it; with a stored iterator, visit the pointed node's
`file_to_compare` or its `duplicates` according to the flag. -/
def visit (root : Node κ) (a : Accessor) : VisitOutcome :=
  match a.iter with
  | none =>
    match root.ftc with
    | none => .badAccess
    | some p => .visited [p]
  | some cur =>
    let cs := (resolveNode root cur.1).childs
    if cur.2 < cs.length then
      let nd := ((cs[cur.2]?).map (fun kc => kc.2)).getD emptyNode
      if a.onFtc then .visited [nd.ftc.getD []]
      else .visited nd.duplicates
    else .derefPastEnd

/-! ## Fallible filesystem model (for the I/O-error claim)

`hash_block` begins with `assert(is.is_open() && is.good())`: a file
that cannot be opened fires the assertion and aborts the program (with
`NDEBUG` the subsequent reads silently reuse the stale buffer).  The
fallible model reads through `fsys? : Path → Option Bytes`; an
unreadable file (`none`) propagates as `none` through the whole run,
modelling the abort — the source has no code path that drops the file,
warns, and continues. -/

def promoteE (bsz : Nat) (hashFn : Bytes → κ) (fsys? : Path → Option Bytes) (level : Nat)
    (n : Node κ) : Option (Node κ × Nat) :=
  match n.ftc with
  | none => some (n, 0)
  | some g =>
    match fsys? g with
    | none => none
    | some gc =>
      let dg := hashFn (blockOf bsz gc level)
      let cg := getChild n.childs dg
      if atEof bsz gc level then
        some (Node.mk n.duplicates
          (setChild n.childs dg (Node.mk (cg.duplicates ++ [g]) cg.childs cg.ftc)) none, 1)
      else
        some (Node.mk n.duplicates
          (setChild n.childs dg (Node.mk cg.duplicates cg.childs (some g))) cg.ftc, 1)

def insertLoopE (bsz : Nat) (hashFn : Bytes → κ) (fsys? : Path → Option Bytes) (fp : Path) :
    Nat → Nat → Node κ → Option (Node κ × Nat)
  | 0, _, n => some (n, 0)
  | fuel + 1, level, n =>
    if n.ftc.isNone && n.childs.isEmpty then
      some (Node.mk n.duplicates n.childs (some fp), 0)
    else
      match promoteE bsz hashFn fsys? level n with
      | none => none
      | some pr =>
        let m := pr.1
        match fsys? fp with
        | none => none
        | some cf =>
          let df := hashFn (blockOf bsz cf level)
          let c := getChild m.childs df
          if atEof bsz cf level then
            some (Node.mk m.duplicates
              (setChild m.childs df (Node.mk (c.duplicates ++ [fp]) c.childs c.ftc)) m.ftc,
              pr.2 + 1)
          else
            match insertLoopE bsz hashFn fsys? fp fuel (level + 1) c with
            | none => none
            | some r =>
              some (Node.mk m.duplicates (setChild m.childs df r.1) m.ftc, pr.2 + 1 + r.2)

/-- `process` over the fallible filesystem.  `fs::file_size` is a
separate metadata query (`sizeOfF`): a file can report a size yet fail
to open for reading. -/
def processE (P : Params κ) (fsys? : Path → Option Bytes) (sizeOfF : Path → Nat)
    (fp : Path) (n : Node κ) : Option (Node κ × Nat) :=
  if matchAny P.rxpatterns fp && decide (P.file_min_size ≤ sizeOfF fp) then
    insertLoopE P.block_size P.hashFn fsys? fp (sizeOfF fp / P.block_size + 1) 0 n
  else some (n, 0)

/-- The driver over the fallible filesystem (file roots only, which is
all the I/O-error claim needs). -/
def runEngineE (P : Params κ) (fsys? : Path → Option Bytes) (sizeOfF : Path → Nat)
    (roots : List Path) : Option (Node κ × Nat) :=
  roots.foldl (fun st p =>
    match st with
    | none => none
    | some s =>
      match processE P fsys? sizeOfF p s.1 with
      | none => none
      | some r => some (r.1, s.2 + r.2)) (some (emptyNode, 0))

/-! ## The trie invariant

For a node sitting at key path `ks` below the root:
  * every path in `duplicates` has exactly `ks` as its complete digest
    sequence (it reported eof at level `ks.length - 1`);
  * a pending `file_to_compare` agrees with `ks` on its first
    `ks.length` digests, has more blocks to read, and — crucially — the
    node has no children (a pending file is promoted before any child
    of its node is created);
  * child keys are strictly sorted (the ordered map);
  * every child subtree holds at least one path;
  * children satisfy the invariant at their extended key paths.
-/

inductive Inv (bsz : Nat) (hf : Bytes → κ) (fsys : Path → Bytes) : List κ → Node κ → Prop where
  | node : ∀ (ks : List κ) (d : List Path) (cs : List (κ × Node κ)) (f : Option Path),
      (∀ p ∈ d, fullDigests bsz hf (fsys p) = ks) →
      (∀ p, f = some p → cs = [] ∧ ks.length ≤ (fsys p).length / bsz ∧
            digestsUpTo bsz hf (fsys p) ks.length = ks) →
      cs.Pairwise (fun a b => a.1 < b.1) →
      (∀ kc ∈ cs, pathsOf kc.2 ≠ []) →
      (∀ kc ∈ cs, Inv bsz hf fsys (ks ++ [kc.1]) kc.2) →
      Inv bsz hf fsys ks (.mk d cs f)

/-- The node update of the terminal insertion step (candidate at eof):
append the candidate to `childs[df].duplicates`. -/
def stepEof (m : Node κ) (df : κ) (fp : Path) : Node κ :=
  Node.mk m.duplicates
    (setChild m.childs df
      (Node.mk ((getChild m.childs df).duplicates ++ [fp])
        (getChild m.childs df).childs (getChild m.childs df).ftc)) m.ftc

/-- The node update of the descending insertion step: replace
`childs[df]` by the recursively updated child. -/
def stepDown (m : Node κ) (df : κ) (r : Node κ) : Node κ :=
  Node.mk m.duplicates (setChild m.childs df r) m.ftc

/-! ## Engine-level fold invariant

`EngState st acc` relates the engine state (trie root, digest-call
count) after some prefix of the scan to the accepted paths `acc` seen
so far: the trie satisfies the invariant, it stores exactly the
accepted paths (as a multiset), no digest call has happened while at
most one file was accepted, and at least `acc.length - 1` digest calls
have happened. -/

def EngState (P : Params κ) (fsys : Path → Bytes) (st : Node κ × Nat) (acc : List Path) : Prop :=
  Inv P.block_size P.hashFn fsys [] st.1 ∧
  (pathsOf st.1 : Multiset Path) = ↑acc ∧
  (acc.length ≤ 1 → st.2 = 0) ∧
  acc.length ≤ st.2 + 1

/-! ## Same-class characterisation -/

/-- Two paths lie in the same `duplicates` list of some node: they are
enumerated by one and the same `Accessor` position. -/
def sameDupLeaf (R : Node κ) (a b : Path) : Prop :=
  ∃ ks m, nodeAt R ks = some m ∧ a ∈ m.duplicates ∧ b ∈ m.duplicates

/-- Two paths are enumerated by the same `Accessor`: either both in one
`duplicates` list or both as the (unique) pending file of one node. -/
def sameClass (R : Node κ) (a b : Path) : Prop :=
  sameDupLeaf R a b ∨ ∃ ks m, nodeAt R ks = some m ∧ m.ftc = some a ∧ m.ftc = some b

/-! ## Concrete demonstration engines

Small closed instances used by the claim-level counterexamples and
witnesses below.  The digest key type is `Nat`; the demonstration hash
functions are chosen to separate the concrete blocks that occur in each
scenario (the engine treats the digest as an abstract key). -/

/-- Digest for the small-block demos: the first byte of the block. -/
def dHashHead : Bytes → Nat := fun bl => bl.headD 0

/-- Digest for the `block_size = 1024` demo: the third byte of the
block (the position at which the two demo files differ). -/
def dHashThird : Bytes → Nat := fun bl => bl.getD 2 0

def fsPair (p1 p2 : Path) (c1 c2 : Bytes) : Path → Bytes :=
  fun p => if p = p1 then c1 else if p = p2 then c2 else []

/-- C1 demo: 2-byte and 3-byte files with the same zero-padded block. -/
def fsDemo1 : Path → Bytes := fsPair ["a1"] ["b1"] [9] [9, 0]

/-- C2 demo: 1-byte and 2-byte files with the same zero-padded block. -/
def fsDemo2 : Path → Bytes := fsPair ["a2"] ["b2"] [7] [7, 0]

/-- C3 demo: two files of distinct sizes 1 and 2. -/
def fsDemo3 : Path → Bytes := fsPair ["a3"] ["b3"] [1] [2, 3]

/-- C4 demo: three files sharing block prefixes under `block_size = 1`. -/
def fsDemo4 : Path → Bytes :=
  fun p => if p = ["f1"] then [97] else if p = ["f2"] then [97, 0, 98]
    else if p = ["f3"] then [97, 0, 99] else []

/-- C7 demo: the spec's scenario 2, contents "abc" and "abd". -/
def fsDemo7 : Path → Bytes := fsPair ["a"] ["b"] [97, 98, 99] [97, 98, 100]

/-- Singleton demo: exactly one accepted file. -/
def fsDemo9 : Path → Bytes := fun p => if p = ["s"] then [7] else []

/-- Witness demo: two byte-identical 1-byte files. -/
def fsDemoW : Path → Bytes := fsPair ["w1"] ["w2"] [5] [5]

def pDemo (bsz : Nat) : Params Nat := ⟨bsz, 1, [], [], dHashHead⟩

def pDemo7 : Params Nat := ⟨1024, 1, [], [], dHashThird⟩

def pDemo6 : Params Nat := ⟨4, 1, [["sub"]], [], dHashHead⟩

def allReg : Path → Bool := fun _ => true

/-- C8 demo, fallible filesystem: `["ok"]` is readable, `["bad"]`
reports a size but cannot be opened. -/
def fsRead8 : Path → Option Bytes := fun p => if p = ["ok"] then some [97, 98, 99] else none

def size8 : Path → Nat := fun _ => 3

/-- C6 demo filesystem: every path holds one byte. -/
def fsDemo6 : Path → Bytes := fun _ => [1]

/-! ## Block-digest arithmetic -/

variable {bsz : Nat} {hf : Bytes → κ} {fsys : Path → Bytes} {P : Params κ}

theorem atEof_true_iff (hB : 0 < bsz) (c : Bytes) (l : Nat) :
    atEof bsz c l = true ↔ c.length / bsz ≤ l := by
  have h : c.length / bsz < l + 1 ↔ c.length < (l + 1) * bsz := Nat.div_lt_iff_lt_mul hB
  simp only [atEof, decide_eq_true_eq]
  omega

theorem atEof_false_iff (hB : 0 < bsz) (c : Bytes) (l : Nat) :
    atEof bsz c l = false ↔ l < c.length / bsz := by
  have h : c.length / bsz < l + 1 ↔ c.length < (l + 1) * bsz := Nat.div_lt_iff_lt_mul hB
  simp only [atEof, decide_eq_false_iff_not, not_lt]
  omega

theorem digestsUpTo_succ (c : Bytes) (m : Nat) :
    digestsUpTo bsz hf c (m + 1) = digestsUpTo bsz hf c m ++ [hf (blockOf bsz c m)] := by
  simp [digestsUpTo, List.range_succ]

theorem length_digestsUpTo (c : Bytes) (m : Nat) : (digestsUpTo bsz hf c m).length = m := by
  simp [digestsUpTo]

theorem length_fullDigests (c : Bytes) :
    (fullDigests bsz hf c).length = c.length / bsz + 1 := by
  simp [fullDigests, length_digestsUpTo]

theorem digestsUpTo_take (c : Bytes) {m k : Nat} (h : m ≤ k) :
    (digestsUpTo bsz hf c k).take m = digestsUpTo bsz hf c m := by
  simp [digestsUpTo, ← List.map_take, List.take_range, Nat.min_eq_left h]

theorem fullDigests_eq_digestsUpTo (c : Bytes) :
    fullDigests bsz hf c = digestsUpTo bsz hf c (c.length / bsz + 1) := rfl

/-! ## Ordered child-map lemmas -/

theorem lookupChild_setChild_self (cs : List (κ × Node κ)) (k : κ) (c : Node κ) :
    lookupChild (setChild cs k c) k = some c := by
  induction cs with
  | nil => simp [setChild, lookupChild]
  | cons kc rest ih =>
    obtain ⟨k1, c1⟩ := kc
    by_cases hk : k = k1
    · simp [setChild, hk, lookupChild]
    · by_cases hlt : k < k1
      · simp [setChild, hk, hlt, lookupChild]
      · simp [setChild, hk, hlt, lookupChild, ih]

theorem lookupChild_setChild_ne (cs : List (κ × Node κ)) (k k' : κ) (c : Node κ)
    (h : k' ≠ k) : lookupChild (setChild cs k c) k' = lookupChild cs k' := by
  induction cs with
  | nil => simp [setChild, lookupChild, h]
  | cons kc rest ih =>
    obtain ⟨k1, c1⟩ := kc
    by_cases hk : k = k1
    · subst hk; simp [setChild, lookupChild, h]
    · by_cases hlt : k < k1
      · simp [setChild, hk, hlt, lookupChild, h]
      · simp [setChild, hk, hlt, lookupChild, ih]

theorem mem_setChild {cs : List (κ × Node κ)} {k : κ} {c : Node κ} {kc : κ × Node κ}
    (hm : kc ∈ setChild cs k c) : kc = (k, c) ∨ kc ∈ cs := by
  induction cs with
  | nil => simpa [setChild] using hm
  | cons kc1 rest ih =>
    obtain ⟨k1, c1⟩ := kc1
    by_cases hk : k = k1
    · rw [setChild, if_pos hk, List.mem_cons] at hm
      rcases hm with hm | hm
      · exact Or.inl hm
      · exact Or.inr (List.mem_cons_of_mem _ hm)
    · by_cases hlt : k < k1
      · rw [setChild, if_neg hk, if_pos hlt, List.mem_cons] at hm
        rcases hm with hm | hm
        · exact Or.inl hm
        · exact Or.inr hm
      · rw [setChild, if_neg hk, if_neg hlt, List.mem_cons] at hm
        rcases hm with hm | hm
        · exact Or.inr (hm ▸ List.mem_cons_self _ _)
        · rcases ih hm with h2 | h2
          · exact Or.inl h2
          · exact Or.inr (List.mem_cons_of_mem _ h2)

theorem pairwise_setChild {cs : List (κ × Node κ)} (k : κ) (c : Node κ)
    (hpw : cs.Pairwise (fun a b => a.1 < b.1)) :
    (setChild cs k c).Pairwise (fun a b => a.1 < b.1) := by
  induction cs with
  | nil => simp [setChild]
  | cons kc1 rest ih =>
    obtain ⟨k1, c1⟩ := kc1
    rw [List.pairwise_cons] at hpw
    obtain ⟨h1, h2⟩ := hpw
    by_cases hk : k = k1
    · rw [setChild, if_pos hk]
      refine List.pairwise_cons.mpr ⟨?_, h2⟩
      intro b hb
      simpa [← hk] using h1 b hb
    · by_cases hlt : k < k1
      · rw [setChild, if_neg hk, if_pos hlt]
        refine List.pairwise_cons.mpr ⟨?_, List.pairwise_cons.mpr ⟨h1, h2⟩⟩
        intro b hb
        rw [List.mem_cons] at hb
        rcases hb with hb | hb
        · rw [hb]; exact hlt
        · exact lt_trans hlt (h1 b hb)
      · rw [setChild, if_neg hk, if_neg hlt]
        refine List.pairwise_cons.mpr ⟨?_, ih h2⟩
        intro b hb
        rcases mem_setChild hb with h3 | h3
        · rw [h3]
          exact lt_of_le_of_ne (le_of_not_lt hlt) (Ne.symm hk)
        · exact h1 b h3

theorem lookupChild_mem {cs : List (κ × Node κ)} {k : κ} {c : Node κ}
    (hl : lookupChild cs k = some c) : (k, c) ∈ cs := by
  induction cs with
  | nil => simp [lookupChild] at hl
  | cons kc1 rest ih =>
    obtain ⟨k1, c1⟩ := kc1
    by_cases hk : k = k1
    · rw [lookupChild, if_pos hk, Option.some_inj] at hl
      rw [hk, hl]
      exact List.mem_cons_self _ _
    · rw [lookupChild, if_neg hk] at hl
      exact List.mem_cons_of_mem _ (ih hl)

theorem lookupChild_eq_none {cs : List (κ × Node κ)} {k : κ}
    (h : ∀ kc ∈ cs, kc.1 ≠ k) : lookupChild cs k = none := by
  induction cs with
  | nil => rfl
  | cons kc1 rest ih =>
    obtain ⟨k1, c1⟩ := kc1
    have hne : k ≠ k1 := fun he => (h (k1, c1) (List.mem_cons_self _ _)) he.symm
    rw [lookupChild, if_neg hne]
    exact ih fun kc hkc => h kc (List.mem_cons_of_mem _ hkc)

theorem lookupChild_eq_of_mem {cs : List (κ × Node κ)} {k : κ} {c : Node κ}
    (hpw : cs.Pairwise (fun a b => a.1 < b.1)) (hm : (k, c) ∈ cs) :
    lookupChild cs k = some c := by
  induction cs with
  | nil => simp at hm
  | cons kc1 rest ih =>
    obtain ⟨k1, c1⟩ := kc1
    rw [List.pairwise_cons] at hpw
    rw [List.mem_cons] at hm
    rcases hm with hm | hm
    · injection hm with e1 e2
      rw [lookupChild, if_pos e1, e2]
    · have hne : k ≠ k1 := by
        intro he
        have := hpw.1 (k, c) hm
        rw [he] at this
        exact absurd this (lt_irrefl k1)
      rw [lookupChild, if_neg hne]
      exact ih hpw.2 hm

/-! ## pathsOf lemmas -/

theorem pathsOf_mk (d : List Path) (cs : List (κ × Node κ)) (f : Option Path) :
    pathsOf (Node.mk d cs f) = d ++ f.toList ++ pathsList cs := by
  rw [pathsOf]

theorem pathsList_nil : pathsList ([] : List (κ × Node κ)) = [] := by
  rw [pathsList]

theorem pathsList_cons (kc : κ × Node κ) (rest : List (κ × Node κ)) :
    pathsList (kc :: rest) = pathsOf kc.2 ++ pathsList rest := by
  obtain ⟨k, c⟩ := kc
  rw [pathsList]

theorem pathsOf_emptyNode : pathsOf (emptyNode : Node κ) = [] := by
  rw [emptyNode, pathsOf_mk, pathsList_nil]
  rfl

/-- Replacing / inserting one child changes the subtree's path multiset
by exactly the difference between the new child and the previous
occupant of the key. -/
theorem pathsList_setChild {cs : List (κ × Node κ)}
    (hpw : cs.Pairwise (fun a b => a.1 < b.1)) (k : κ) (c : Node κ) :
    (pathsList (setChild cs k c) : Multiset Path) + ↑(pathsOf (getChild cs k))
      = ↑(pathsOf c) + ↑(pathsList cs) := by
  induction cs with
  | nil =>
    simp [setChild, getChild, lookupChild, pathsList_cons, pathsList_nil, pathsOf_emptyNode]
  | cons kc1 rest ih =>
    obtain ⟨k1, c1⟩ := kc1
    rw [List.pairwise_cons] at hpw
    obtain ⟨h1, h2⟩ := hpw
    by_cases hk : k = k1
    · rw [setChild, if_pos hk, getChild, lookupChild, if_pos hk]
      simp only [pathsList_cons, Option.getD_some]
      simp only [← Multiset.coe_add]
      abel
    · by_cases hlt : k < k1
      · have hnone : lookupChild rest k = none := by
          refine lookupChild_eq_none fun kc hkc => ?_
          have := h1 kc hkc
          intro he
          rw [he] at this
          exact absurd (lt_trans hlt this) (lt_irrefl k)
        rw [setChild, if_neg hk, if_pos hlt, getChild, lookupChild, if_neg hk, hnone]
        simp [pathsList_cons, pathsOf_emptyNode, add_comm, add_left_comm, add_assoc]
      · have hgc : getChild ((k1, c1) :: rest) k = getChild rest k := by
          rw [getChild, lookupChild, if_neg hk, getChild]
        rw [setChild, if_neg hk, if_neg hlt, hgc]
        simp only [pathsList_cons]
        have heq := ih h2
        simp only [← Multiset.coe_add] at heq ⊢
        rw [add_assoc, heq, add_left_comm]
theorem inv_dup {ks : List κ} {n : Node κ} (h : Inv bsz hf fsys ks n) :
    ∀ p ∈ n.duplicates, fullDigests bsz hf (fsys p) = ks := by
  cases h with
  | node ks d cs f h1 h2 h3 h4 h5 => exact h1

theorem inv_ftc {ks : List κ} {n : Node κ} (h : Inv bsz hf fsys ks n) :
    ∀ p, n.ftc = some p → n.childs = [] ∧ ks.length ≤ (fsys p).length / bsz ∧
      digestsUpTo bsz hf (fsys p) ks.length = ks := by
  cases h with
  | node ks d cs f h1 h2 h3 h4 h5 => exact h2

theorem inv_pairwise {ks : List κ} {n : Node κ} (h : Inv bsz hf fsys ks n) :
    n.childs.Pairwise (fun a b => a.1 < b.1) := by
  cases h with
  | node ks d cs f h1 h2 h3 h4 h5 => exact h3

theorem inv_child_nonempty {ks : List κ} {n : Node κ} (h : Inv bsz hf fsys ks n) :
    ∀ kc ∈ n.childs, pathsOf kc.2 ≠ [] := by
  cases h with
  | node ks d cs f h1 h2 h3 h4 h5 => exact h4

theorem inv_children {ks : List κ} {n : Node κ} (h : Inv bsz hf fsys ks n) :
    ∀ kc ∈ n.childs, Inv bsz hf fsys (ks ++ [kc.1]) kc.2 := by
  cases h with
  | node ks d cs f h1 h2 h3 h4 h5 => exact h5

theorem inv_emptyNode (ks : List κ) : Inv bsz hf fsys ks (emptyNode : Node κ) := by
  refine Inv.node ks [] [] none ?_ ?_ ?_ ?_ ?_ <;> simp

theorem inv_mk_iff {ks : List κ} {d : List Path} {cs : List (κ × Node κ)} {f : Option Path} :
    Inv bsz hf fsys ks (.mk d cs f) ↔
      (∀ p ∈ d, fullDigests bsz hf (fsys p) = ks) ∧
      (∀ p, f = some p → cs = [] ∧ ks.length ≤ (fsys p).length / bsz ∧
            digestsUpTo bsz hf (fsys p) ks.length = ks) ∧
      cs.Pairwise (fun a b => a.1 < b.1) ∧
      (∀ kc ∈ cs, pathsOf kc.2 ≠ []) ∧
      (∀ kc ∈ cs, Inv bsz hf fsys (ks ++ [kc.1]) kc.2) := by
  constructor
  · intro h
    cases h with
    | node ks d cs f h1 h2 h3 h4 h5 => exact ⟨h1, h2, h3, h4, h5⟩
  · rintro ⟨h1, h2, h3, h4, h5⟩
    exact Inv.node ks d cs f h1 h2 h3 h4 h5

/-! ## nodeAt lemmas -/

theorem nodeAt_nil (n : Node κ) : nodeAt n [] = some n := rfl

theorem nodeAt_cons (n : Node κ) (k : κ) (ks : List κ) :
    nodeAt n (k :: ks) =
      match lookupChild n.childs k with
      | none => none
      | some c => nodeAt c ks := by
  rw [nodeAt]

theorem nodeAt_append (n : Node κ) (ks1 ks2 : List κ) :
    nodeAt n (ks1 ++ ks2) = (nodeAt n ks1).bind (fun m => nodeAt m ks2) := by
  induction ks1 generalizing n with
  | nil => rw [nodeAt_nil]; rfl
  | cons k rest ih =>
    rw [List.cons_append, nodeAt_cons, nodeAt_cons]
    cases lookupChild n.childs k with
    | none => rfl
    | some c => exact ih c

theorem inv_nodeAt {ks ks2 : List κ} {n m : Node κ} (h : Inv bsz hf fsys ks n)
    (hm : nodeAt n ks2 = some m) : Inv bsz hf fsys (ks ++ ks2) m := by
  induction ks2 generalizing ks n with
  | nil =>
    rw [nodeAt_nil, Option.some_inj] at hm
    rw [List.append_nil, ← hm]
    exact h
  | cons k rest ih =>
    rw [nodeAt_cons] at hm
    cases hl : lookupChild n.childs k with
    | none => rw [hl] at hm; exact absurd hm (by simp)
    | some c =>
      rw [hl] at hm
      have hc := inv_children h (k, c) (lookupChild_mem hl)
      have := ih hc hm
      rw [List.append_cons]
      exact this

/-! ## Promotion lemmas

Under the invariant a node with a pending `file_to_compare` has no
children, so the `operator[]`-plus-swap in the source amounts to moving
the pending file into a fresh child. -/

theorem promote_pathsOf {ks : List κ} {n : Node κ} {level : Nat}
    (h : Inv bsz hf fsys ks n) :
    pathsOf (promote bsz hf fsys level n).1 = pathsOf n := by
  cases n with
  | mk d cs f =>
    cases f with
    | none => rfl
    | some g =>
      have hcs : cs = [] := (inv_ftc h g rfl).1
      subst hcs
      simp only [promote, Node.ftc, Node.childs, Node.duplicates, getChild, lookupChild,
        Option.getD_none, emptyNode]
      by_cases heof : atEof bsz (fsys g) level
      · rw [if_pos heof]
        simp [pathsOf_mk, pathsList_cons, pathsList_nil, setChild, Node.duplicates,
          Node.childs, Node.ftc]
      · rw [if_neg heof]
        simp [pathsOf_mk, pathsList_cons, pathsList_nil, setChild, Node.duplicates,
          Node.childs, Node.ftc]

theorem promote_ftc_none {ks : List κ} {n : Node κ} {level : Nat}
    (h : Inv bsz hf fsys ks n) :
    (promote bsz hf fsys level n).1.ftc = none := by
  cases n with
  | mk d cs f =>
    cases f with
    | none => rfl
    | some g =>
      have hcs : cs = [] := (inv_ftc h g rfl).1
      subst hcs
      simp only [promote, Node.ftc, Node.childs, Node.duplicates, getChild, lookupChild,
        Option.getD_none, emptyNode]
      by_cases heof : atEof bsz (fsys g) level
      · rw [if_pos heof]
      · rw [if_neg heof]

theorem promote_inv (hB : 0 < bsz) {ks : List κ} {n : Node κ} {level : Nat}
    (h : Inv bsz hf fsys ks n) (hlen : ks.length = level) :
    Inv bsz hf fsys ks (promote bsz hf fsys level n).1 := by
  cases n with
  | mk d cs f =>
    cases f with
    | none => exact h
    | some g =>
      obtain ⟨hcs, hlev, hpre⟩ := inv_ftc h g rfl
      simp only [Node.childs] at hcs
      subst hcs
      rw [hlen] at hlev hpre
      simp only [promote, Node.ftc, Node.childs, Node.duplicates, getChild, lookupChild,
        Option.getD_none, emptyNode]
      by_cases heof : atEof bsz (fsys g) level
      · rw [if_pos heof]
        have hLg : (fsys g).length / bsz = level :=
          le_antisymm ((atEof_true_iff hB (fsys g) level).mp heof) hlev
        have hfull : fullDigests bsz hf (fsys g) =
            ks ++ [hf (blockOf bsz (fsys g) level)] := by
          rw [fullDigests_eq_digestsUpTo, hLg, digestsUpTo_succ, hpre]
        refine Inv.node ks d _ none (inv_dup h) (by simp) ?_ ?_ ?_
        · simp [setChild]
        · intro kc hkc
          simp only [setChild, List.mem_singleton] at hkc
          subst hkc
          simp [pathsOf_mk, pathsList_nil]
        · intro kc hkc
          simp only [setChild, List.mem_singleton] at hkc
          subst hkc
          refine Inv.node _ [g] [] none ?_ (by simp) (by simp) (by simp) (by simp)
          intro p hp
          rw [List.mem_singleton] at hp
          subst hp
          exact hfull
      · rw [if_neg heof]
        have hLg : level < (fsys g).length / bsz := by
          have := (atEof_false_iff hB (fsys g) level).mp (by simpa using heof)
          exact this
        refine Inv.node ks d _ none (inv_dup h) (by simp) ?_ ?_ ?_
        · simp [setChild]
        · intro kc hkc
          simp only [setChild, List.mem_singleton] at hkc
          subst hkc
          simp [pathsOf_mk, pathsList_nil]
        · intro kc hkc
          simp only [setChild, List.mem_singleton] at hkc
          subst hkc
          refine Inv.node _ [] [] (some g) (by simp) ?_ (by simp) (by simp) (by simp)
          intro p hp
          rw [Option.some_inj] at hp
          subst hp
          refine ⟨rfl, ?_, ?_⟩
          · simp only [List.length_append, List.length_singleton, hlen]
            exact hLg
          · have : (ks ++ [hf (blockOf bsz (fsys g) level)]).length = level + 1 := by
              simp [hlen]
            rw [this, digestsUpTo_succ, hpre]

/-! ## Insertion-step lemmas -/

theorem insertLoop_succ_eq (fp : Path) (fuel level : Nat) (n : Node κ) :
    insertLoop bsz hf fsys fp (fuel + 1) level n =
      if n.ftc.isNone && n.childs.isEmpty then (Node.mk n.duplicates n.childs (some fp), 0)
      else
        if atEof bsz (fsys fp) level then
          (stepEof (promote bsz hf fsys level n).1 (hf (blockOf bsz (fsys fp) level)) fp,
           (promote bsz hf fsys level n).2 + 1)
        else
          (stepDown (promote bsz hf fsys level n).1 (hf (blockOf bsz (fsys fp) level))
            (insertLoop bsz hf fsys fp fuel (level + 1)
              (getChild (promote bsz hf fsys level n).1.childs
                (hf (blockOf bsz (fsys fp) level)))).1,
           (promote bsz hf fsys level n).2 + 1 +
             (insertLoop bsz hf fsys fp fuel (level + 1)
               (getChild (promote bsz hf fsys level n).1.childs
                 (hf (blockOf bsz (fsys fp) level)))).2) := by
  rw [insertLoop]
  rfl

/-- Inserting a file only adds that file to the subtree's multiset of
stored paths; everything already stored stays stored. -/
theorem insertLoop_paths (hB : 0 < bsz) (fp : Path) :
    ∀ (fuel level : Nat) (ks : List κ) (n : Node κ),
      Inv bsz hf fsys ks n →
      ks.length = level →
      level ≤ (fsys fp).length / bsz →
      (fsys fp).length / bsz < level + fuel →
      (pathsOf (insertLoop bsz hf fsys fp fuel level n).1 : Multiset Path)
        = ↑(pathsOf n) + ↑[fp] := by
  intro fuel
  induction fuel with
  | zero =>
    intro level ks n _ _ h3 h4
    omega
  | succ fuel ih =>
    intro level ks n hInv hlen hlev hfuel
    rw [insertLoop_succ_eq]
    by_cases hstore : (n.ftc.isNone && n.childs.isEmpty) = true
    · rw [if_pos hstore]
      cases n with
      | mk d cs f =>
        simp only [Node.ftc, Node.childs, Bool.and_eq_true, Option.isNone_iff_eq_none,
          List.isEmpty_iff] at hstore
        obtain ⟨hf0, hcs0⟩ := hstore
        subst hf0
        subst hcs0
        simp only [pathsOf_mk, pathsList_nil, Node.duplicates, Node.childs, Node.ftc,
          Option.toList_some, Option.toList_none, List.append_nil, List.nil_append]
        rw [Multiset.coe_add]
    · rw [if_neg hstore]
      have hmi : Inv bsz hf fsys ks (promote bsz hf fsys level n).1 :=
        promote_inv hB hInv hlen
      have hmp : pathsOf (promote bsz hf fsys level n).1 = pathsOf n :=
        promote_pathsOf hInv
      cases hm : (promote bsz hf fsys level n).1 with
      | mk md mcs mf =>
        rw [hm] at hmi hmp
        have hpw : mcs.Pairwise (fun a b => a.1 < b.1) := by
          have := inv_pairwise hmi
          simpa [Node.childs] using this
        have hcInv : Inv bsz hf fsys (ks ++ [hf (blockOf bsz (fsys fp) level)])
            (getChild mcs (hf (blockOf bsz (fsys fp) level))) := by
          rw [getChild]
          cases hlc : lookupChild mcs (hf (blockOf bsz (fsys fp) level)) with
          | none => simpa using inv_emptyNode _
          | some c0 =>
            simpa using inv_children hmi (hf (blockOf bsz (fsys fp) level), c0)
              (lookupChild_mem hlc)
        by_cases heof : atEof bsz (fsys fp) level = true
        · rw [if_pos heof]
          cases hcc : getChild mcs (hf (blockOf bsz (fsys fp) level)) with
          | mk cd ccs cf =>
            have h1 := pathsList_setChild hpw (hf (blockOf bsz (fsys fp) level))
              (Node.mk (cd ++ [fp]) ccs cf)
            rw [hcc] at h1
            have h3 : (↑(pathsOf (Node.mk (cd ++ [fp]) ccs cf)) : Multiset Path)
                + ↑(pathsList mcs)
                = (↑[fp] + ↑(pathsList mcs)) + ↑(pathsOf (Node.mk cd ccs cf)) := by
              simp only [pathsOf_mk, ← Multiset.coe_add]
              abel
            have h2 := add_right_cancel (h1.trans h3)
            simp only [stepEof, Node.duplicates, Node.childs, Node.ftc, hcc, ← hmp]
            simp only [pathsOf_mk, ← Multiset.coe_add, h2]
            abel
        · rw [if_neg heof]
          have hneof : atEof bsz (fsys fp) level = false := by
            simpa using heof
          have hlev2 : level < (fsys fp).length / bsz :=
            (atEof_false_iff hB (fsys fp) level).mp hneof
          have hr := ih (level + 1) (ks ++ [hf (blockOf bsz (fsys fp) level)])
            (getChild mcs (hf (blockOf bsz (fsys fp) level))) hcInv
            (by simp [hlen]) hlev2 (by omega)
          have h1 := pathsList_setChild hpw (hf (blockOf bsz (fsys fp) level))
            (insertLoop bsz hf fsys fp fuel (level + 1)
              (getChild mcs (hf (blockOf bsz (fsys fp) level)))).1
          have h3 : (↑(pathsOf (insertLoop bsz hf fsys fp fuel (level + 1)
                (getChild mcs (hf (blockOf bsz (fsys fp) level)))).1) : Multiset Path)
              + ↑(pathsList mcs)
              = (↑[fp] + ↑(pathsList mcs))
                + ↑(pathsOf (getChild mcs (hf (blockOf bsz (fsys fp) level)))) := by
            rw [hr]
            abel
          have h2 := add_right_cancel (h1.trans h3)
          simp only [stepDown, Node.duplicates, Node.childs, Node.ftc, ← hmp]
          simp only [pathsOf_mk, ← Multiset.coe_add, h2]
          abel

/-- Insertion preserves the trie invariant. -/
theorem insertLoop_inv (hB : 0 < bsz) (fp : Path) :
    ∀ (fuel level : Nat) (ks : List κ) (n : Node κ),
      Inv bsz hf fsys ks n →
      ks.length = level →
      level ≤ (fsys fp).length / bsz →
      digestsUpTo bsz hf (fsys fp) level = ks →
      (fsys fp).length / bsz < level + fuel →
      Inv bsz hf fsys ks (insertLoop bsz hf fsys fp fuel level n).1 := by
  intro fuel
  induction fuel with
  | zero =>
    intro level ks n _ _ h3 _ h5
    omega
  | succ fuel ih =>
    intro level ks n hInv hlen hlev hpre hfuel
    rw [insertLoop_succ_eq]
    by_cases hstore : (n.ftc.isNone && n.childs.isEmpty) = true
    · rw [if_pos hstore]
      cases n with
      | mk d cs f =>
        simp only [Node.ftc, Node.childs, Bool.and_eq_true, Option.isNone_iff_eq_none,
          List.isEmpty_iff] at hstore
        obtain ⟨hf0, hcs0⟩ := hstore
        subst hf0
        subst hcs0
        refine Inv.node ks d [] (some fp) (inv_dup hInv) ?_ (by simp) (by simp) (by simp)
        intro p hp
        rw [Option.some_inj] at hp
        subst hp
        exact ⟨rfl, hlen ▸ hlev, hlen ▸ hpre⟩
    · rw [if_neg hstore]
      have hmi : Inv bsz hf fsys ks (promote bsz hf fsys level n).1 :=
        promote_inv hB hInv hlen
      have hmf : (promote bsz hf fsys level n).1.ftc = none := promote_ftc_none hInv
      cases hm : (promote bsz hf fsys level n).1 with
      | mk md mcs mf =>
        rw [hm] at hmi hmf
        simp only [Node.ftc] at hmf
        subst hmf
        have hpw : mcs.Pairwise (fun a b => a.1 < b.1) := by
          simpa [Node.childs] using inv_pairwise hmi
        have hcInv : Inv bsz hf fsys (ks ++ [hf (blockOf bsz (fsys fp) level)])
            (getChild mcs (hf (blockOf bsz (fsys fp) level))) := by
          rw [getChild]
          cases hlc : lookupChild mcs (hf (blockOf bsz (fsys fp) level)) with
          | none => simpa using inv_emptyNode _
          | some c0 =>
            simpa using inv_children hmi (hf (blockOf bsz (fsys fp) level), c0)
              (lookupChild_mem hlc)
        by_cases heof : atEof bsz (fsys fp) level = true
        · rw [if_pos heof]
          have hLf : (fsys fp).length / bsz = level :=
            le_antisymm ((atEof_true_iff hB (fsys fp) level).mp heof) hlev
          have hfull : fullDigests bsz hf (fsys fp) =
              ks ++ [hf (blockOf bsz (fsys fp) level)] := by
            rw [fullDigests_eq_digestsUpTo, hLf, digestsUpTo_succ, hpre]
          cases hcc : getChild mcs (hf (blockOf bsz (fsys fp) level)) with
          | mk cd ccs cf =>
            rw [hcc] at hcInv
            refine Inv.node ks md _ none (inv_dup hmi) (by simp) ?_ ?_ ?_
            · simp only [stepEof, Node.childs, hcc, Node.duplicates, Node.ftc]
              exact pairwise_setChild _ _ hpw
            · simp only [stepEof, Node.childs, hcc, Node.duplicates, Node.ftc]
              intro kc hkc
              rcases mem_setChild hkc with h0 | h0
              · subst h0
                simp [pathsOf_mk]
              · exact inv_child_nonempty hmi kc h0
            · simp only [stepEof, Node.childs, hcc, Node.duplicates, Node.ftc]
              intro kc hkc
              rcases mem_setChild hkc with h0 | h0
              · subst h0
                refine Inv.node _ (cd ++ [fp]) ccs cf ?_ (inv_ftc hcInv)
                  (inv_pairwise hcInv) (inv_child_nonempty hcInv) (inv_children hcInv)
                intro p hp
                rw [List.mem_append] at hp
                rcases hp with hp | hp
                · exact inv_dup hcInv p hp
                · rw [List.mem_singleton] at hp
                  subst hp
                  exact hfull
              · exact inv_children hmi kc h0
        · rw [if_neg heof]
          have hneof : atEof bsz (fsys fp) level = false := by
            simpa using heof
          have hlev2 : level < (fsys fp).length / bsz :=
            (atEof_false_iff hB (fsys fp) level).mp hneof
          have hpre2 : digestsUpTo bsz hf (fsys fp) (level + 1) =
              ks ++ [hf (blockOf bsz (fsys fp) level)] := by
            rw [digestsUpTo_succ, hpre]
          have hrInv := ih (level + 1) (ks ++ [hf (blockOf bsz (fsys fp) level)])
            (getChild mcs (hf (blockOf bsz (fsys fp) level))) hcInv
            (by simp [hlen]) hlev2 hpre2 (by omega)
          have hrPaths := insertLoop_paths hB fp fuel (level + 1)
            (ks ++ [hf (blockOf bsz (fsys fp) level)])
            (getChild mcs (hf (blockOf bsz (fsys fp) level))) hcInv
            (by simp [hlen]) hlev2 (by omega)
          have hrne : pathsOf (insertLoop bsz hf fsys fp fuel (level + 1)
              (getChild mcs (hf (blockOf bsz (fsys fp) level)))).1 ≠ [] := by
            intro h0
            rw [h0] at hrPaths
            have := congrArg Multiset.card hrPaths
            simp at this
          refine Inv.node ks md _ none (inv_dup hmi) (by simp) ?_ ?_ ?_
          · simp only [stepDown, Node.childs, Node.duplicates, Node.ftc]
            exact pairwise_setChild _ _ hpw
          · simp only [stepDown, Node.childs, Node.duplicates, Node.ftc]
            intro kc hkc
            rcases mem_setChild hkc with h0 | h0
            · subst h0
              exact hrne
            · exact inv_child_nonempty hmi kc h0
          · simp only [stepDown, Node.childs, Node.duplicates, Node.ftc]
            intro kc hkc
            rcases mem_setChild hkc with h0 | h0
            · subst h0
              exact hrInv
            · exact inv_children hmi kc h0

/-! ## Counting lemmas -/

theorem insertLoop_store_eq {n : Node κ} (h1 : n.ftc = none) (h2 : n.childs = [])
    (fp : Path) (fuel level : Nat) :
    insertLoop bsz hf fsys fp (fuel + 1) level n
      = (Node.mk n.duplicates n.childs (some fp), 0) := by
  rw [insertLoop_succ_eq, if_pos]
  simp [h1, h2]

theorem insertLoop_count_pos {n : Node κ} (h : ¬(n.ftc = none ∧ n.childs = []))
    (fp : Path) (fuel level : Nat) :
    1 ≤ (insertLoop bsz hf fsys fp (fuel + 1) level n).2 := by
  rw [insertLoop_succ_eq, if_neg]
  · by_cases heof : atEof bsz (fsys fp) level = true
    · rw [if_pos heof]
      omega
    · rw [if_neg heof]
      omega
  · simp only [Bool.and_eq_true, Option.isNone_iff_eq_none, List.isEmpty_iff]
    exact h

/-- The root's `duplicates` list is always empty: files land in
`duplicates` only one level below the node at which their last block
was hashed. -/
theorem root_dup_empty {n : Node κ} (h : Inv bsz hf fsys [] n) : n.duplicates = [] := by
  cases hd : n.duplicates with
  | nil => rfl
  | cons p rest =>
    have := inv_dup h p (by rw [hd]; exact List.mem_cons_self _ _)
    have hlen := congrArg List.length this
    rw [length_fullDigests] at hlen
    simp at hlen

/-- An invariant-satisfying root with no stored paths is structurally
empty. -/
theorem trie_empty_shape {n : Node κ} (h : Inv bsz hf fsys [] n)
    (hp : pathsOf n = []) : n.ftc = none ∧ n.childs = [] := by
  cases n with
  | mk d cs f =>
    rw [pathsOf_mk] at hp
    simp only [List.append_eq_nil] at hp
    obtain ⟨⟨hd, hfl⟩, hcs⟩ := hp
    refine ⟨?_, ?_⟩
    · cases f with
      | none => rfl
      | some p => simp at hfl
    · cases hc : cs with
      | nil => rfl
      | cons kc rest =>
        exfalso
        have hne := inv_child_nonempty h kc (by rw [Node.childs, hc]; exact List.mem_cons_self _ _)
        rw [hc, pathsList_cons] at hcs
        rw [List.append_eq_nil] at hcs
        exact hne hcs.1

theorem engState_start (P : Params κ) (fsys : Path → Bytes) :
    EngState P fsys ((emptyNode : Node κ), 0) [] := by
  refine ⟨inv_emptyNode [], ?_, ?_, ?_⟩ <;> simp [pathsOf_emptyNode]

/-- One `process` call advances `EngState` by the file iff it is
accepted. -/
theorem process_step (hB : 0 < P.block_size) {st : Node κ × Nat} {acc : List Path}
    (h : EngState P fsys st acc) (fp : Path) :
    EngState P fsys ((process P fsys fp st.1).1, st.2 + (process P fsys fp st.1).2)
      (acc ++ if accepts P fsys fp then [fp] else []) := by
  obtain ⟨hInv, hPaths, hZero, hLb⟩ := h
  by_cases hacc : accepts P fsys fp = true
  · rw [process, if_pos hacc]
    have harith : (fsys fp).length / P.block_size <
        0 + ((fsys fp).length / P.block_size + 1) := by omega
    have hInv2 := insertLoop_inv hB fp ((fsys fp).length / P.block_size + 1) 0 [] st.1
      hInv rfl (Nat.zero_le _) rfl harith
    have hPaths2 := insertLoop_paths hB fp ((fsys fp).length / P.block_size + 1) 0 [] st.1
      hInv rfl (Nat.zero_le _) harith
    rw [if_pos hacc]
    refine ⟨hInv2, ?_, ?_, ?_⟩
    · rw [hPaths2, hPaths, Multiset.coe_add]
    · intro hle
      rw [List.length_append, List.length_singleton] at hle
      have hacc0 : acc.length = 0 := by omega
      have hacc1 : acc = [] := List.length_eq_zero.mp hacc0
      have hst2 : st.2 = 0 := hZero (by omega)
      have hpe : pathsOf st.1 = [] := by
        rw [hacc1] at hPaths
        exact (Multiset.coe_eq_zero _).mp (by simpa using hPaths)
      obtain ⟨hftc, hcs⟩ := trie_empty_shape hInv hpe
      rw [insertLoop_store_eq hftc hcs]
      omega
    · rw [List.length_append, List.length_singleton]
      by_cases hae : acc = []
      · subst hae
        simp
      · have hpne : pathsOf st.1 ≠ [] := by
          intro h0
          rw [h0] at hPaths
          have : (↑acc : Multiset Path) = 0 := by simpa using hPaths.symm
          exact hae ((Multiset.coe_eq_zero _).mp this)
        have hns : ¬(st.1.ftc = none ∧ st.1.childs = []) := by
          rintro ⟨h1, h2⟩
          apply hpne
          cases st1 : st.1 with
          | mk d cs f =>
            rw [st1] at h1 h2 hInv
            simp only [Node.ftc] at h1
            simp only [Node.childs] at h2
            have hd := root_dup_empty hInv
            simp only [Node.duplicates] at hd
            subst h1
            subst h2
            subst hd
            simp [pathsOf_mk, pathsList_nil]
        have : 1 ≤ (insertLoop P.block_size P.hashFn fsys fp
            ((fsys fp).length / P.block_size + 1) 0 st.1).2 :=
          insertLoop_count_pos hns fp ((fsys fp).length / P.block_size) 0
        omega
  · rw [process, if_neg hacc, if_neg hacc]
    simpa using ⟨hInv, hPaths, hZero, hLb⟩

/-- The directory-entry fold of `runOne` advances `EngState` by
exactly the entries that pass `pre_process`: not excluded, regular, and
accepted by `process`. -/
theorem dir_fold_spec (hB : 0 < P.block_size) (isReg : Path → Bool) (root : Path) :
    ∀ (entries : List Path) (st : Node κ × Nat) (acc : List Path),
      EngState P fsys st acc →
      EngState P fsys
        (entries.foldl (fun st2 q =>
          if is_excluded q root P.paths_exclude || !isReg q then st2
          else
            let r := process P fsys q st2.1
            (r.1, st2.2 + r.2)) st)
        (acc ++ entries.filter (fun q =>
          !is_excluded q root P.paths_exclude && isReg q && accepts P fsys q)) := by
  intro entries
  induction entries with
  | nil =>
    intro st acc h
    simpa using h
  | cons q rest ih =>
    intro st acc h
    rw [List.foldl_cons, List.filter_cons]
    by_cases hskip : (is_excluded q root P.paths_exclude || !isReg q) = true
    · rw [if_pos hskip]
      have hpred : (!is_excluded q root P.paths_exclude && isReg q && accepts P fsys q)
          = false := by
        rcases Bool.or_eq_true _ _ |>.mp hskip with hx | hx
        · simp [hx]
        · rw [Bool.not_eq_true'] at hx
          simp [hx]
      rw [hpred]
      simpa using ih st acc h
    · rw [if_neg hskip]
      have hnx : is_excluded q root P.paths_exclude = false := by
        rcases Bool.or_eq_false_iff.mp (Bool.not_eq_true _ |>.mp hskip) with ⟨h1, h2⟩
        exact h1
      have hreg : isReg q = true := by
        rcases Bool.or_eq_false_iff.mp (Bool.not_eq_true _ |>.mp hskip) with ⟨h1, h2⟩
        simpa using h2
      have hstep := process_step hB h q
      by_cases hacc : accepts P fsys q = true
      · have hpred : (!is_excluded q root P.paths_exclude && isReg q && accepts P fsys q)
            = true := by simp [hnx, hreg, hacc]
        rw [hpred]
        have := ih ((process P fsys q st.1).1, st.2 + (process P fsys q st.1).2)
          (acc ++ [q]) (by rw [if_pos hacc] at hstep; exact hstep)
        simpa [List.append_assoc] using this
      · have hpred : (!is_excluded q root P.paths_exclude && isReg q && accepts P fsys q)
            = false := by simp [hacc]
        rw [hpred]
        have := ih ((process P fsys q st.1).1, st.2 + (process P fsys q st.1).2)
          (acc ++ []) (by rw [if_neg hacc] at hstep; simpa using hstep)
        simpa using this

/-- One scan entry advances `EngState` by its accepted paths. -/
theorem runOne_spec (hB : 0 < P.block_size) (isReg : Path → Bool)
    {st : Node κ × Nat} {acc : List Path} (h : EngState P fsys st acc) (e : ScanEntry) :
    EngState P fsys (runOne P fsys isReg st e) (acc ++ acceptedOne P fsys isReg e) := by
  cases e with
  | file p =>
    have hstep := process_step hB h p
    rw [runOne, acceptedOne]
    by_cases hacc : accepts P fsys p = true
    · rw [if_pos hacc]
      rw [if_pos hacc] at hstep
      exact hstep
    · rw [if_neg hacc]
      rw [if_neg hacc] at hstep
      exact hstep
  | dir root entries =>
    rw [runOne, acceptedOne]
    exact dir_fold_spec hB isReg root entries st acc h
  | missing p =>
    rw [runOne, acceptedOne]
    simpa using h

/-- After a complete `run()`, the engine state matches the accepted
paths of the whole scan. -/
theorem runEngine_spec (hB : 0 < P.block_size) (isReg : Path → Bool) (roots : List ScanEntry) :
    EngState P fsys (runEngine P fsys isReg roots) (acceptedPaths P fsys isReg roots) := by
  suffices hgen : ∀ (rs : List ScanEntry) (st : Node κ × Nat) (acc : List Path),
      EngState P fsys st acc →
      EngState P fsys (rs.foldl (runOne P fsys isReg) st)
        (acc ++ rs.flatMap (acceptedOne P fsys isReg)) by
    have := hgen roots (emptyNode, 0) [] (engState_start P fsys)
    simpa [runEngine, acceptedPaths] using this
  intro rs
  induction rs with
  | nil =>
    intro st acc h
    simpa using h
  | cons e rest ih =>
    intro st acc h
    rw [List.foldl_cons, List.flatMap_cons]
    have := ih (runOne P fsys isReg st e) (acc ++ acceptedOne P fsys isReg e)
      (runOne_spec hB isReg h e)
    simpa [List.append_assoc] using this

/-! ## Locating stored paths -/

theorem mem_pathsList {cs : List (κ × Node κ)} {p : Path} (hp : p ∈ pathsList cs) :
    ∃ kc ∈ cs, p ∈ pathsOf kc.2 := by
  induction cs with
  | nil => rw [pathsList_nil] at hp; simp at hp
  | cons kc rest ih =>
    rw [pathsList_cons, List.mem_append] at hp
    rcases hp with hp | hp
    · exact ⟨kc, List.mem_cons_self _ _, hp⟩
    · obtain ⟨kc2, hkc2, hm⟩ := ih hp
      exact ⟨kc2, List.mem_cons_of_mem _ hkc2, hm⟩

/-- Every stored path sits either in the `duplicates` of the node
addressed by its complete digest sequence, or in the `file_to_compare`
of a childless node addressed by a proper prefix of its digest
sequence. -/
theorem located {ks : List κ} {n : Node κ} (h : Inv bsz hf fsys ks n) (p : Path) :
    p ∈ pathsOf n →
    (∃ ks2 m, nodeAt n ks2 = some m ∧ p ∈ m.duplicates ∧
      fullDigests bsz hf (fsys p) = ks ++ ks2) ∨
    (∃ ks2 m, nodeAt n ks2 = some m ∧ m.ftc = some p ∧ m.childs = [] ∧
      (ks ++ ks2).length ≤ (fsys p).length / bsz ∧
      digestsUpTo bsz hf (fsys p) (ks ++ ks2).length = ks ++ ks2) := by
  induction h with
  | node ks d cs f h1 h2 h3 h4 h5 ih =>
    intro hp
    rw [pathsOf_mk, List.mem_append, List.mem_append] at hp
    rcases hp with (hp | hp) | hp
    · refine Or.inl ⟨[], Node.mk d cs f, nodeAt_nil _, hp, ?_⟩
      rw [List.append_nil]
      exact h1 p hp
    · have hf0 : f = some p := by
        cases f with
        | none => simp at hp
        | some q =>
          simp only [Option.toList_some, List.mem_singleton] at hp
          rw [hp]
      obtain ⟨hcs, hlev, hpre⟩ := h2 p hf0
      refine Or.inr ⟨[], Node.mk d cs f, nodeAt_nil _, hf0, hcs, ?_, ?_⟩
      · rw [List.append_nil]; exact hlev
      · rw [List.append_nil]; exact hpre
    · obtain ⟨kc, hkc, hm⟩ := mem_pathsList hp
      rcases ih kc hkc hm with ⟨ks2, m, hnode, hdup, hdig⟩ | ⟨ks2, m, hnode, hftc, hcs, hlev, hpre⟩
      · refine Or.inl ⟨kc.1 :: ks2, m, ?_, hdup, ?_⟩
        · rw [nodeAt_cons]
          have : lookupChild (Node.mk d cs f).childs kc.1 = some kc.2 :=
            lookupChild_eq_of_mem h3 (by rw [Prod.mk.eta]; exact hkc)
          rw [this]
          exact hnode
        · rw [hdig, List.append_cons, List.append_assoc]
          simp
      · refine Or.inr ⟨kc.1 :: ks2, m, ?_, hftc, hcs, ?_, ?_⟩
        · rw [nodeAt_cons]
          have : lookupChild (Node.mk d cs f).childs kc.1 = some kc.2 :=
            lookupChild_eq_of_mem h3 (by rw [Prod.mk.eta]; exact hkc)
          rw [this]
          exact hnode
        · have : ks ++ kc.1 :: ks2 = (ks ++ [kc.1]) ++ ks2 := by
            rw [List.append_assoc]; simp
          rw [this]
          exact hlev
        · have : ks ++ kc.1 :: ks2 = (ks ++ [kc.1]) ++ ks2 := by
            rw [List.append_assoc]; simp
          rw [this]
          exact hpre

/-- A childless node blocks every strictly deeper address. -/
theorem ftc_blocks_below {R : Node κ} {ks2 ks3 : List κ} {m m2 : Node κ}
    (hm : nodeAt R ks2 = some m) (hcs : m.childs = [])
    (hlt : ks2.length < ks3.length) (hpre : ks3.take ks2.length = ks2)
    (hm2 : nodeAt R ks3 = some m2) : False := by
  have hsplit : ks3 = ks2 ++ ks3.drop ks2.length := by
    conv_lhs => rw [← List.take_append_drop ks2.length ks3]
    rw [hpre]
  have hdrop : ks3.drop ks2.length ≠ [] := by
    intro h0
    have := List.length_drop ks2.length ks3
    rw [h0] at this
    simp at this
    omega
  obtain ⟨k, rest, hk⟩ := List.exists_cons_of_ne_nil hdrop
  rw [hsplit, hk, nodeAt_append, hm] at hm2
  simp only [Option.some_bind] at hm2
  rw [nodeAt_cons, hcs] at hm2
  simp [lookupChild] at hm2

theorem sameClass_iff (hB : 0 < bsz) {R : Node κ} (hInv : Inv bsz hf fsys [] R)
    {a b : Path} (hab : a ≠ b) (ha : a ∈ pathsOf R) (hb : b ∈ pathsOf R) :
    sameClass R a b ↔ fullDigests bsz hf (fsys a) = fullDigests bsz hf (fsys b) := by
  constructor
  · rintro (⟨ks, m, hnode, hda, hdb⟩ | ⟨ks, m, hnode, hfa, hfb⟩)
    · have hmInv : Inv bsz hf fsys ks m := by
        have := inv_nodeAt hInv hnode
        simpa using this
      rw [inv_dup hmInv a hda, inv_dup hmInv b hdb]
    · exfalso
      rw [hfa] at hfb
      rw [Option.some_inj] at hfb
      exact hab hfb
  · intro hdig
    rcases located hInv a ha with ⟨ksa, ma, hna, hda, hia⟩ | ⟨ksa, ma, hna, hfa, hca, hla, hpa⟩ <;>
      rcases located hInv b hb with ⟨ksb, mb, hnb, hdb, hib⟩ | ⟨ksb, mb, hnb, hfb, hcb, hlb, hpb⟩
    · left
      rw [List.nil_append] at hia hib
      have hks : ksa = ksb := by rw [← hia, ← hib, hdig]
      subst hks
      rw [hna] at hnb
      rw [Option.some_inj] at hnb
      subst hnb
      exact ⟨ksa, ma, hna, hda, hdb⟩
    · exfalso
      rw [List.nil_append] at hia hlb hpb
      have hlena : ksa.length = (fsys a).length / bsz + 1 := by
        rw [← hia, length_fullDigests]
      have hlab : (fsys a).length / bsz = (fsys b).length / bsz := by
        have := congrArg List.length hdig
        rw [length_fullDigests, length_fullDigests] at this
        omega
      have hltb : ksb.length < ksa.length := by omega
      have hpreb : ksa.take ksb.length = ksb := by
        rw [← hia, hdig, fullDigests_eq_digestsUpTo, digestsUpTo_take, hpb]
        omega
      exact ftc_blocks_below hnb hcb hltb hpreb hna
    · exfalso
      rw [List.nil_append] at hib hla hpa
      have hlenb : ksb.length = (fsys b).length / bsz + 1 := by
        rw [← hib, length_fullDigests]
      have hlab : (fsys a).length / bsz = (fsys b).length / bsz := by
        have := congrArg List.length hdig
        rw [length_fullDigests, length_fullDigests] at this
        omega
      have hlta : ksa.length < ksb.length := by omega
      have hprea : ksb.take ksa.length = ksa := by
        rw [← hib, ← hdig, fullDigests_eq_digestsUpTo, digestsUpTo_take, hpa]
        omega
      exact ftc_blocks_below hna hca hlta hprea hnb
    · rw [List.nil_append] at hla hpa hlb hpb
      have hlab : (fsys a).length / bsz = (fsys b).length / bsz := by
        have := congrArg List.length hdig
        rw [length_fullDigests, length_fullDigests] at this
        omega
      have hba : ∀ m, m ≤ (fsys a).length / bsz + 1 →
          digestsUpTo bsz hf (fsys b) m = digestsUpTo bsz hf (fsys a) m := by
        intro m hm
        calc digestsUpTo bsz hf (fsys b) m
            = (fullDigests bsz hf (fsys b)).take m := by
              rw [fullDigests_eq_digestsUpTo]
              exact (digestsUpTo_take (fsys b) (by omega)).symm
          _ = (fullDigests bsz hf (fsys a)).take m := by rw [hdig]
          _ = digestsUpTo bsz hf (fsys a) m := by
              rw [fullDigests_eq_digestsUpTo]
              exact digestsUpTo_take (fsys a) (by omega)
      rcases lt_trichotomy ksa.length ksb.length with hlt | heq | hlt
      · exfalso
        have hpre : ksb.take ksa.length = ksa := by
          rw [← hpb, digestsUpTo_take (fsys b) (le_of_lt hlt), hba ksa.length (by omega), hpa]
        exact ftc_blocks_below hna hca hlt hpre hnb
      · exfalso
        have hpre : ksa = ksb := by
          rw [← hpa, ← hpb, heq, hba ksb.length (by omega)]
        subst hpre
        rw [hna] at hnb
        rw [Option.some_inj] at hnb
        subst hnb
        rw [hfa] at hfb
        rw [Option.some_inj] at hfb
        exact hab hfb
      · exfalso
        have hpre : ksa.take ksb.length = ksb := by
          rw [← hpa, digestsUpTo_take (fsys a) (le_of_lt hlt), ← hba ksb.length (by omega), hpb]
        exact ftc_blocks_below hnb hcb hlt hpre hna

/-! ## Iterator lemmas -/

/-- Incrementing an iterator whose stack already sits at the root map's
end leaves the stack and flag unchanged: the end iterator is a fixed
point of `operator++`. -/
theorem next_end_fixed {root : Node κ} {s : IterState} (h : iterEq s (endIter root)) :
    iterEq (next root s) (endIter root) := by
  obtain ⟨h1, h2⟩ := h
  cases s with
  | mk path iter onFtc =>
    simp only [endIter] at h1 h2
    subst h1
    subst h2
    rw [next]
    simp only [if_pos rfl]
    exact ⟨rfl, rfl⟩

/-- `lookup_end_at_left` only pushes onto the descent stack. -/
theorem lookLeft_path (n : Node κ) (front : Cursor) (rest : List Cursor) :
    ∃ l, (lookLeft n front rest).path = l ++ front :: rest := by
  induction n, front, rest using lookLeft.induct with
  | case1 d cs f front rest hd =>
    refine ⟨[], ?_⟩
    rw [lookLeft.eq_def]
    simp only [if_pos hd]
    simp
  | case2 d cs f front rest hnd hnf =>
    refine ⟨[], ?_⟩
    rw [lookLeft.eq_def]
    simp only [if_neg hnd, if_pos hnf]
    simp
  | case3 d f front rest hnd hnf =>
    refine ⟨[], ?_⟩
    rw [lookLeft.eq_def]
    simp only [if_neg hnd, if_neg hnf]
    simp
  | case4 d f front rest hnd hnf c tail ih =>
    obtain ⟨l, hl⟩ := ih
    refine ⟨l ++ [childBegin front], ?_⟩
    rw [lookLeft.eq_def]
    simp only [if_neg hnd, if_neg hnf]
    rw [hl, List.append_assoc]
    rfl

/-- `begin() == end()` exactly when the trie stores nothing. -/
theorem begin_eq_end_iff {root : Node κ} (hInv : Inv bsz hf fsys [] root) :
    iterEq (beginIter root) (endIter root) ↔ pathsOf root = [] := by
  cases root with
  | mk d cs f =>
    have hd : d = [] := by
      have := root_dup_empty hInv
      simpa [Node.duplicates] using this
    subst hd
    constructor
    · rintro ⟨h1, h2⟩
      cases hc : cs with
      | nil =>
        subst hc
        cases hfv : f with
        | some p =>
          exfalso
          rw [beginIter] at h2
          simp only [Node.childs] at h2
          rw [hfv] at h2
          simp [endIter, Node.ftc] at h2
        | none =>
          subst hfv
          simp [pathsOf_mk, pathsList_nil]
      | cons c rest =>
        exfalso
        subst hc
        rw [beginIter] at h2
        simp only [Node.childs] at h2
        obtain ⟨l, hl⟩ := lookLeft_path c.2 ([], 0) []
        rw [hl] at h2
        simp only [endIter] at h2
        have hlen := congrArg List.length h2
        rw [List.length_append] at hlen
        simp only [List.length_singleton, List.length_cons, List.length_nil] at hlen
        have hl0 : l = [] := List.length_eq_zero.mp (by omega)
        subst hl0
        rw [List.nil_append] at h2
        simp only [List.cons.injEq] at h2
        obtain ⟨hhd, _⟩ := h2
        simp [rootEnd, Node.childs] at hhd
    · intro hp
      obtain ⟨hftc, hcs⟩ := trie_empty_shape hInv hp
      simp only [Node.ftc] at hftc
      simp only [Node.childs] at hcs
      subst hftc
      subst hcs
      refine ⟨rfl, ?_⟩
      rw [beginIter]
      simp [endIter, rootEnd, Node.childs, Node.ftc]

/-- `Accessor::visit` on the accessor obtained by dereferencing `end()`
dereferences the root child map's past-the-end iterator. -/
theorem visit_of_end (root : Node κ) :
    visit root (deref (endIter root)) = .derefPastEnd := by
  rw [visit]
  simp [deref, endIter, rootEnd, resolveNode]

/-- `Accessor::visit` with a vacant map-iterator slot: throws bad
access iff the root has no pending file, and otherwise hands the
visitor the root's pending path. -/
theorem visit_vacant (root : Node κ) (b : Bool) :
    (root.ftc = none → visit root (Accessor.mk none b) = .badAccess) ∧
    (∀ p, root.ftc = some p → visit root (Accessor.mk none b) = .visited [p]) := by
  constructor
  · intro h
    rw [visit, h]
  · intro p h
    rw [visit, h]

/-! ## Claim C1 -/

/-- C1, counterexample.  The claim requires that two accepted files of
different sizes never share a leaf.  In the code there is no size
partition: the 2-byte file `a1` and the 3-byte file `b1` have the same
zero-padded first block, both reach eof at block 0, and land in the
same `duplicates` list. -/
theorem c1_counterexample :
    sameClass (runEngine (pDemo 4) fsDemo1 allReg
        [.file ["a1"], .file ["b1"]]).1 ["a1"] ["b1"] ∧
    (fsDemo1 ["a1"]).length ≠ (fsDemo1 ["b1"]).length ∧
    ["a1"] ∈ acceptedPaths (pDemo 4) fsDemo1 allReg [.file ["a1"], .file ["b1"]] ∧
    ["b1"] ∈ acceptedPaths (pDemo 4) fsDemo1 allReg [.file ["a1"], .file ["b1"]] := by
  refine ⟨Or.inl ⟨[9], _, rfl, ?_, ?_⟩, by decide, by decide, by decide⟩ <;> decide

/-- C1 (amended): two distinct accepted files are enumerated by the
same `Accessor` after `run()` iff their complete zero-padded
block-digest sequences (levels `0 .. size / block_size`, the last block
being the eof block) coincide.  Equal digest sequences force equal
block counts but not equal sizes, so files of different sizes whose
padded digest sequences coincide share a leaf. -/
theorem c1_same_class_iff_digests {κ : Type} [LinearOrder κ]
    (P : Params κ) (fsys : Path → Bytes) (isReg : Path → Bool) (roots : List ScanEntry)
    (hB : 0 < P.block_size) (a b : Path) (hab : a ≠ b)
    (ha : a ∈ acceptedPaths P fsys isReg roots)
    (hb : b ∈ acceptedPaths P fsys isReg roots) :
    sameClass (runEngine P fsys isReg roots).1 a b ↔
      fullDigests P.block_size P.hashFn (fsys a)
        = fullDigests P.block_size P.hashFn (fsys b) := by
  have hspec : EngState P fsys (runEngine P fsys isReg roots)
      (acceptedPaths P fsys isReg roots) := runEngine_spec hB isReg roots
  have ha2 : a ∈ pathsOf (runEngine P fsys isReg roots).1 := by
    have : a ∈ (↑(pathsOf (runEngine P fsys isReg roots).1) : Multiset Path) := by
      rw [hspec.2.1]
      exact Multiset.mem_coe.mpr ha
    exact Multiset.mem_coe.mp this
  have hb2 : b ∈ pathsOf (runEngine P fsys isReg roots).1 := by
    have : b ∈ (↑(pathsOf (runEngine P fsys isReg roots).1) : Multiset Path) := by
      rw [hspec.2.1]
      exact Multiset.mem_coe.mpr hb
    exact Multiset.mem_coe.mp this
  exact sameClass_iff hB hspec.1 hab ha2 hb2

/-- C1, witness: two byte-identical one-byte files end in the same
class. -/
theorem c1_witness :
    sameClass (runEngine (pDemo 4) fsDemoW allReg
      [.file ["w1"], .file ["w2"]]).1 ["w1"] ["w2"] :=
  (c1_same_class_iff_digests (pDemo 4) fsDemoW allReg [.file ["w1"], .file ["w2"]]
    (by decide) ["w1"] ["w2"] (by decide) (by decide) (by decide)).mpr (by decide)

/-! ## Claim C2 -/

/-- C2, counterexample.  The claim asserts a top-level map keyed by
file size, with accepted files of different sizes in different size
buckets.  The engine's root is a single `Node` with no size keying:
the 1-byte file `a2` and the 2-byte file `b2` end in one and the same
`duplicates` list under the root's digest-keyed child map. -/
theorem c2_counterexample :
    (getChild (runEngine (pDemo 4) fsDemo2 allReg
        [.file ["a2"], .file ["b2"]]).1.childs 7).duplicates = [["a2"], ["b2"]] ∧
    (fsDemo2 ["a2"]).length ≠ (fsDemo2 ["b2"]).length ∧
    ["a2"] ∈ acceptedPaths (pDemo 4) fsDemo2 allReg [.file ["a2"], .file ["b2"]] ∧
    ["b2"] ∈ acceptedPaths (pDemo 4) fsDemo2 allReg [.file ["a2"], .file ["b2"]] := by
  refine ⟨?_, ?_, ?_, ?_⟩ <;> decide

/-- C2 (amended): the trie's top level is a single root node, not a
size-keyed map, so files of different sizes are not pre-partitioned;
what survives of the claim is the lazy start: a file inserted while the
trie is empty is stored immediately as the root's pending
`file_to_compare` with zero digest computations. -/
theorem c2_empty_insert_no_hash {κ : Type} [LinearOrder κ]
    (P : Params κ) (fsys : Path → Bytes) (p : Path)
    (hacc : accepts P fsys p = true) :
    process P fsys p (emptyNode : Node κ) = (Node.mk [] [] (some p), 0) := by
  rw [process, if_pos hacc]
  refine insertLoop_store_eq ?_ ?_ p ((fsys p).length / P.block_size) 0 <;> rfl

/-- C2, witness. -/
theorem c2_witness :
    process (pDemo 4) fsDemo2 ["a2"] (emptyNode : Node Nat)
      = (Node.mk [] [] (some ["a2"]), 0) :=
  c2_empty_insert_no_hash (pDemo 4) fsDemo2 ["a2"] (by decide)

/-! ## Claim C3 -/

/-- C3, counterexample.  Two accepted files of pairwise distinct sizes
(1 byte and 2 bytes): the run performs 2 digest computations, not 0 —
without the size pre-partition the second insertion always hashes. -/
theorem c3_counterexample :
    acceptedPaths (pDemo 4) fsDemo3 allReg [.file ["a3"], .file ["b3"]]
        = [["a3"], ["b3"]] ∧
    (fsDemo3 ["a3"]).length ≠ (fsDemo3 ["b3"]).length ∧
    (runEngine (pDemo 4) fsDemo3 allReg [.file ["a3"], .file ["b3"]]).2 = 2 ∧
    ¬(runEngine (pDemo 4) fsDemo3 allReg [.file ["a3"], .file ["b3"]]).2 = 0 := by
  refine ⟨?_, ?_, ?_, ?_⟩ <;> decide

/-- C3 (amended): a complete `run()` performs zero digest computations
iff at most one file is accepted; distinct sizes do not prevent
hashing. -/
theorem c3_zero_hashes_iff {κ : Type} [LinearOrder κ]
    (P : Params κ) (fsys : Path → Bytes) (isReg : Path → Bool) (roots : List ScanEntry)
    (hB : 0 < P.block_size) :
    (runEngine P fsys isReg roots).2 = 0 ↔
      (acceptedPaths P fsys isReg roots).length ≤ 1 := by
  have hspec : EngState P fsys (runEngine P fsys isReg roots)
      (acceptedPaths P fsys isReg roots) := runEngine_spec hB isReg roots
  obtain ⟨_, _, hz, hlb⟩ := hspec
  constructor
  · intro h0
    omega
  · exact hz

/-- C3, witness: a run accepting a single file performs no digest
computation. -/
theorem c3_witness :
    (runEngine (pDemo 4) fsDemo9 allReg [.file ["s"]]).2 = 0 :=
  (c3_zero_hashes_iff (pDemo 4) fsDemo9 allReg [.file ["s"]] (by decide)).mpr (by decide)

/-! ## Claim C4 -/

/-- C4, counterexample.  With `block_size = 1` and files `[97]`,
`[97,0,98]`, `[97,0,99]`, the node at digest path `[97, 0]` ends the
run with a non-empty `duplicates` list AND non-empty children — a node
is not exclusively a leaf or an internal node. -/
theorem c4_counterexample :
    nodeAt (runEngine (pDemo 1) fsDemo4 allReg
        [.file ["f1"], .file ["f2"], .file ["f3"]]).1 [97, 0]
      = some (getChild (getChild (runEngine (pDemo 1) fsDemo4 allReg
        [.file ["f1"], .file ["f2"], .file ["f3"]]).1.childs 97).childs 0) ∧
    (getChild (getChild (runEngine (pDemo 1) fsDemo4 allReg
        [.file ["f1"], .file ["f2"], .file ["f3"]]).1.childs 97).childs 0).duplicates
      = [["f1"]] ∧
    (getChild (getChild (runEngine (pDemo 1) fsDemo4 allReg
        [.file ["f1"], .file ["f2"], .file ["f3"]]).1.childs 97).childs 0).duplicates ≠ [] ∧
    (getChild (getChild (runEngine (pDemo 1) fsDemo4 allReg
        [.file ["f1"], .file ["f2"], .file ["f3"]]).1.childs 97).childs 0).childs.isEmpty
      = false := by
  refine ⟨rfl, by decide, by decide, by decide⟩

/-- C4 (amended): the invariant the code actually maintains is about
the pending slot: after `run()` every reachable node with a non-empty
`file_to_compare` has an empty children map.  The claimed exclusivity
between `duplicates` and `childs` does not hold (see the
counterexample). -/
theorem c4_pending_implies_childless {κ : Type} [LinearOrder κ]
    (P : Params κ) (fsys : Path → Bytes) (isReg : Path → Bool) (roots : List ScanEntry)
    (hB : 0 < P.block_size) (ks : List κ) (m : Node κ)
    (hm : nodeAt (runEngine P fsys isReg roots).1 ks = some m)
    (hftc : m.ftc ≠ none) : m.childs = [] := by
  have hspec : EngState P fsys (runEngine P fsys isReg roots)
      (acceptedPaths P fsys isReg roots) := runEngine_spec hB isReg roots
  have hmInv : Inv P.block_size P.hashFn fsys ks m := by
    have := inv_nodeAt hspec.1 hm
    simpa using this
  cases hfv : m.ftc with
  | none => exact absurd hfv hftc
  | some p => exact (inv_ftc hmInv p hfv).1

/-- C4, witness: the singleton run stores its file in the root's
pending slot, and the root has no children. -/
theorem c4_witness :
    (runEngine (pDemo 4) fsDemo9 allReg [.file ["s"]]).1.childs = [] :=
  c4_pending_implies_childless (pDemo 4) fsDemo9 allReg [.file ["s"]] (by decide) []
    (runEngine (pDemo 4) fsDemo9 allReg [.file ["s"]]).1 rfl (by decide)

/-! ## Claim C5 -/

/-- C5: after `run()`, the multiset of paths stored in the trie — the
`duplicates` lists together with the pending `file_to_compare` slots,
which is exactly what the `Accessor`s enumerate — equals the multiset
of accepted input paths. -/
theorem c5_stored_eq_accepted {κ : Type} [LinearOrder κ]
    (P : Params κ) (fsys : Path → Bytes) (isReg : Path → Bool) (roots : List ScanEntry)
    (hB : 0 < P.block_size) :
    (↑(pathsOf (runEngine P fsys isReg roots).1) : Multiset Path)
      = ↑(acceptedPaths P fsys isReg roots) :=
  (runEngine_spec hB isReg roots).2.1

/-- C5, witness: a mixed scan (two identical files plus a missing
root). -/
theorem c5_witness :
    (↑(pathsOf (runEngine (pDemo 4) fsDemoW allReg
        [.file ["w1"], .missing ["zz"], .file ["w2"]]).1) : Multiset Path)
      = ↑(acceptedPaths (pDemo 4) fsDemoW allReg
        [.file ["w1"], .missing ["zz"], .file ["w2"]]) :=
  c5_stored_eq_accepted (pDemo 4) fsDemoW allReg
    [.file ["w1"], .missing ["zz"], .file ["w2"]] (by decide)

/-! ## Claim C6 -/

/-- C6: (i) a path yielded by directory enumeration whose
scan-root-relative form contains some non-empty element of
`paths_exclude` as a contiguous sub-path — at every directory
occurrence — and which is not itself named as a scan root, never
appears in the trie; (ii) the exclude check is pure set-membership:
`is_excluded` is true exactly when some exclude entry is found in the
relative path (this version of the source does not mutate
`paths_exclude`); (iii) the exclude check is not applied to a path
named directly as a scan root: an accepted file root is always
stored. -/
theorem c6_exclude_semantics {κ : Type} [LinearOrder κ]
    (P : Params κ) (fsys : Path → Bytes) (isReg : Path → Bool) (roots : List ScanEntry)
    (hB : 0 < P.block_size) (p : Path)
    (hnotroot : ScanEntry.file p ∉ roots)
    (hexcl : ∀ root entries, ScanEntry.dir root entries ∈ roots → p ∈ entries →
      ∃ e ∈ P.paths_exclude, e ≠ [] ∧ containsRun e (relativeTo p root) = true) :
    p ∉ pathsOf (runEngine P fsys isReg roots).1 ∧
    (∀ q r, is_excluded q r P.paths_exclude = true ↔
      (P.paths_exclude ≠ [] ∧
        ∃ e ∈ P.paths_exclude, searchFound (relativeTo q r) e = true)) ∧
    (∀ q, accepts P fsys q = true →
      pathsOf (runOne P fsys isReg ((emptyNode : Node κ), 0) (.file q)).1 = [q]) := by
  refine ⟨?_, ?_, ?_⟩
  · intro hmem
    have hspec : EngState P fsys (runEngine P fsys isReg roots)
        (acceptedPaths P fsys isReg roots) := runEngine_spec hB isReg roots
    have hmem2 : p ∈ acceptedPaths P fsys isReg roots := by
      have : p ∈ (↑(pathsOf (runEngine P fsys isReg roots).1) : Multiset Path) :=
        Multiset.mem_coe.mpr hmem
      rw [hspec.2.1] at this
      exact Multiset.mem_coe.mp this
    rw [acceptedPaths, List.mem_flatMap] at hmem2
    obtain ⟨e, he, hpe⟩ := hmem2
    cases e with
    | file q =>
      rw [acceptedOne] at hpe
      by_cases hq : accepts P fsys q = true
      · rw [if_pos hq, List.mem_singleton] at hpe
        subst hpe
        exact hnotroot he
      · rw [if_neg hq] at hpe
        simp at hpe
    | dir root entries =>
      rw [acceptedOne, List.mem_filter] at hpe
      obtain ⟨hpent, hpred⟩ := hpe
      simp only [Bool.and_eq_true, Bool.not_eq_true'] at hpred
      obtain ⟨⟨hnx, _⟩, _⟩ := hpred
      obtain ⟨e0, he0, hne0, hrun⟩ := hexcl root entries he hpent
      have hx : is_excluded p root P.paths_exclude = true := by
        rw [is_excluded]
        have hnonempty : ¬(P.paths_exclude.isEmpty = true) := by
          rw [List.isEmpty_iff]
          intro h0
          rw [h0] at he0
          simp at he0
        rw [if_neg hnonempty, List.any_eq_true]
        refine ⟨e0, he0, ?_⟩
        rw [searchFound, if_neg
          (by rw [List.isEmpty_iff]; exact hne0)]
        exact hrun
      rw [hx] at hnx
      simp at hnx
    | missing q =>
      rw [acceptedOne] at hpe
      simp at hpe
  · intro q r
    rw [is_excluded]
    by_cases hemp : P.paths_exclude.isEmpty = true
    · rw [if_pos hemp]
      rw [List.isEmpty_iff] at hemp
      simp [hemp]
    · rw [if_neg hemp, List.any_eq_true]
      rw [List.isEmpty_iff] at hemp
      constructor
      · rintro ⟨e0, he0, hs⟩
        exact ⟨hemp, e0, he0, hs⟩
      · rintro ⟨_, e0, he0, hs⟩
        exact ⟨e0, he0, hs⟩
  · intro q hq
    have hstore : insertLoop P.block_size P.hashFn fsys q
        ((fsys q).length / P.block_size + 1) 0 (emptyNode : Node κ)
        = (Node.mk [] [] (some q), 0) := by
      refine insertLoop_store_eq ?_ ?_ q ((fsys q).length / P.block_size) 0 <;> rfl
    rw [runOne, process, if_pos hq, hstore]
    simp [pathsOf_mk, pathsList_nil]

/-- C6, witness: scanning root `r` with exclude entry `sub` drops
`r/sub/x` while keeping `r/y`. -/
theorem c6_witness :
    ["r", "sub", "x"] ∉ pathsOf (runEngine pDemo6 fsDemo6 allReg
      [.dir ["r"] [["r", "sub", "x"], ["r", "y"]]]).1 :=
  (c6_exclude_semantics pDemo6 fsDemo6 allReg
    [.dir ["r"] [["r", "sub", "x"], ["r", "y"]]] (by decide) ["r", "sub", "x"]
    (by decide)
    (by
      intro root entries hmem hp
      rw [List.mem_singleton] at hmem
      injection hmem with h1 h2
      subst h1
      subst h2
      exact ⟨["sub"], by decide, by decide, by decide⟩)).1

/-! ## Claim C7 -/

/-- C7, counterexample.  For `a = "abc"`, `b = "abd"`,
`block_size = 1024`, `min_size = 1`, the run performs exactly two
digest computations (promotion of `a`'s block 0, then `b`'s block 0),
not three as claimed. -/
theorem c7_counterexample :
    (runEngine pDemo7 fsDemo7 allReg [.file ["a"], .file ["b"]]).2 = 2 ∧
    ¬(runEngine pDemo7 fsDemo7 allReg [.file ["a"], .file ["b"]]).2 = 3 := by
  refine ⟨?_, ?_⟩ <;> decide

/-- C7 (amended): the scenario produces two singleton classes `{a}` and
`{b}` (two leaves, each with one path, and no pending file anywhere at
the root), and exactly two digest computations in total. -/
theorem c7_two_singletons_two_hashes :
    (runEngine pDemo7 fsDemo7 allReg [.file ["a"], .file ["b"]]).1.childs.map
        (fun kc => kc.2.duplicates) = [[["a"]], [["b"]]] ∧
    (runEngine pDemo7 fsDemo7 allReg [.file ["a"], .file ["b"]]).1.ftc = none ∧
    (runEngine pDemo7 fsDemo7 allReg [.file ["a"], .file ["b"]]).1.duplicates = [] ∧
    pathsOf (runEngine pDemo7 fsDemo7 allReg [.file ["a"], .file ["b"]]).1
      = [["a"], ["b"]] ∧
    (runEngine pDemo7 fsDemo7 allReg [.file ["a"], .file ["b"]]).2 = 2 := by
  refine ⟨?_, ?_, ?_, ?_, ?_⟩ <;> decide

/-! ## Claim C8 -/

/-- C8: `hash_block` opens with `assert(is.is_open() && is.good())` and
`process` has no handler for a failed open or read: in the fallible
model an unreadable file aborts the whole run (`none`) instead of
being dropped with a warning while the scan continues.  The same two
files with the second one readable complete normally. -/
theorem c8_io_error_aborts_run :
    runEngineE (pDemo 4) fsRead8 size8 [["ok"], ["bad"]] = none ∧
    runEngineE (pDemo 4) fsRead8 size8 [["ok"]]
      = some (Node.mk [] [] (some ["ok"]), 0) := by
  exact ⟨rfl, rfl⟩

/-! ## Claim C9 -/

/-- C9, counterexample.  After a run with exactly one accepted file,
incrementing `begin()` yields an iterator equal to `end()`; visiting
the accessor obtained by dereferencing it does NOT fail with bad
access — it hands the visitor the root's pending path. -/
theorem c9_counterexample :
    iterEq
      (next (runEngine (pDemo 4) fsDemo9 allReg [.file ["s"]]).1
        (beginIter (runEngine (pDemo 4) fsDemo9 allReg [.file ["s"]]).1))
      (endIter (runEngine (pDemo 4) fsDemo9 allReg [.file ["s"]]).1) ∧
    visit (runEngine (pDemo 4) fsDemo9 allReg [.file ["s"]]).1
      (deref (next (runEngine (pDemo 4) fsDemo9 allReg [.file ["s"]]).1
        (beginIter (runEngine (pDemo 4) fsDemo9 allReg [.file ["s"]]).1)))
      = .visited [["s"]] ∧
    visit (runEngine (pDemo 4) fsDemo9 allReg [.file ["s"]]).1
      (deref (next (runEngine (pDemo 4) fsDemo9 allReg [.file ["s"]]).1
        (beginIter (runEngine (pDemo 4) fsDemo9 allReg [.file ["s"]]).1)))
      ≠ .badAccess := by
  refine ⟨?_, ?_, ?_⟩ <;> decide

/-- C9 (amended): dereferencing `end()` itself and visiting
dereferences the root map's past-the-end iterator (undefined behaviour
in the source, a distinct outcome here), not the explicit bad-access
failure; an accessor whose map-iterator slot is vacant — the state
produced by incrementing past the last class — fails with bad access
exactly when the root holds no pending file, and otherwise returns the
pending path. -/
theorem c9_visit_outcomes {κ : Type} [LinearOrder κ] (root : Node κ) (b : Bool) :
    visit root (deref (endIter root)) = .derefPastEnd ∧
    (root.ftc = none → visit root (Accessor.mk none b) = .badAccess) ∧
    (∀ p, root.ftc = some p → visit root (Accessor.mk none b) = .visited [p]) :=
  ⟨visit_of_end root, (visit_vacant root b).1, (visit_vacant root b).2⟩

/-- C9, witness. -/
theorem c9_witness :
    visit (emptyNode : Node Nat) (deref (endIter (emptyNode : Node Nat)))
        = .derefPastEnd ∧
    visit (emptyNode : Node Nat) (Accessor.mk none false) = .badAccess :=
  ⟨(c9_visit_outcomes (emptyNode : Node Nat) false).1,
   (c9_visit_outcomes (emptyNode : Node Nat) false).2.1 rfl⟩

/-! ## Claim C10 -/

/-- C10: after `run()`, (i) incrementing any iterator equal to `end()`
leaves it equal to `end()` (the end iterator is a fixed point of
`operator++`), and (ii) `begin() == end()` holds exactly when no file
was accepted during the run. -/
theorem c10_end_fixed_and_begin_end {κ : Type} [LinearOrder κ]
    (P : Params κ) (fsys : Path → Bytes) (isReg : Path → Bool) (roots : List ScanEntry)
    (hB : 0 < P.block_size) :
    (∀ s : IterState, iterEq s (endIter (runEngine P fsys isReg roots).1) →
      iterEq (next (runEngine P fsys isReg roots).1 s)
        (endIter (runEngine P fsys isReg roots).1)) ∧
    (iterEq (beginIter (runEngine P fsys isReg roots).1)
        (endIter (runEngine P fsys isReg roots).1) ↔
      acceptedPaths P fsys isReg roots = []) := by
  have hspec : EngState P fsys (runEngine P fsys isReg roots)
      (acceptedPaths P fsys isReg roots) := runEngine_spec hB isReg roots
  refine ⟨fun s hs => next_end_fixed hs, ?_⟩
  rw [begin_eq_end_iff hspec.1]
  constructor
  · intro h0
    have := hspec.2.1
    rw [h0] at this
    have h2 : (↑(acceptedPaths P fsys isReg roots) : Multiset Path) = 0 := by
      simpa using this.symm
    exact (Multiset.coe_eq_zero _).mp h2
  · intro h0
    have := hspec.2.1
    rw [h0] at this
    exact (Multiset.coe_eq_zero _).mp (by simpa using this)

/-- C10, witness: with two accepted files, incrementing `end()` stays
at `end()`, and `begin() ≠ end()` since the accepted list is
non-empty. -/
theorem c10_witness :
    iterEq
      (next (runEngine (pDemo 4) fsDemoW allReg [.file ["w1"], .file ["w2"]]).1
        (endIter (runEngine (pDemo 4) fsDemoW allReg [.file ["w1"], .file ["w2"]]).1))
      (endIter (runEngine (pDemo 4) fsDemoW allReg [.file ["w1"], .file ["w2"]]).1) ∧
    (iterEq (beginIter (runEngine (pDemo 4) fsDemoW allReg [.file ["w1"], .file ["w2"]]).1)
        (endIter (runEngine (pDemo 4) fsDemoW allReg [.file ["w1"], .file ["w2"]]).1) ↔
      acceptedPaths (pDemo 4) fsDemoW allReg [.file ["w1"], .file ["w2"]] = []) :=
  ⟨(c10_end_fixed_and_begin_end (pDemo 4) fsDemoW allReg
      [.file ["w1"], .file ["w2"]] (by decide)).1 _ (by decide),
   (c10_end_fixed_and_begin_end (pDemo 4) fsDemoW allReg
      [.file ["w1"], .file ["w2"]] (by decide)).2⟩

end Bayan
